import Mathlib

/-!
Verification development for glenn2vcf (`src/main.cpp`): a converter from a
per-base "Glenn" call table over a vg sequence graph to VCF variant records.

The definitions below are a shallow embedding of `main.cpp`:
* `mkBaseCall` embeds the `BaseCall` constructor (main.cpp:36-61);
* `splitCommas` / `toTokenSet` embed the comma split into a `std::set<std::string>`
  (main.cpp:317-319), with the set's sorted, deduplicated iteration order;
* `processGlennLine` embeds one iteration of the Glenn-file parsing loop
  (main.cpp:286-335), including C++ istream extraction semantics
  (failed numeric extraction writes 0 and sets the fail bit; later
  extractions on a failed stream are no-ops) and `size_t` wraparound;
* `trace` embeds the reference-path tracing loop (main.cpp:234-267);
* `processNode` embeds the per-node bubble variant synthesis
  (main.cpp:357-631), with every skip / assert branch kept distinct;
* `snpForNode` embeds the per-reference-node SNP synthesis (main.cpp:633-731).

Machine integers (`size_t`) are modelled as `Nat` with explicit `% 2 ^ 64`
where wraparound matters; out-of-bounds vector indexing (undefined behaviour
in the source) is modelled by `Option`-valued lookup / explicit error values.
-/

/-- Word size of `size_t` in the source build (64-bit). -/
def usizeMod : Nat := 2 ^ 64

/-- Largest `size_t` value, `(size_t) -1` in the source (main.cpp:376,401). -/
def usizeMax : Nat := usizeMod - 1

/-- Complement of one base. Modelled from the spec: `vg::reverse_complement`
is an external collaborator of this system (spec section 6); the spec's only
law about it is that it is an involution (spec section 8), which this
definition satisfies.  Bases other than A/C/G/T are left unchanged. -/
def complement (c : Char) : Char :=
  if c = 'A' then 'T'
  else if c = 'T' then 'A'
  else if c = 'C' then 'G'
  else if c = 'G' then 'C'
  else c

/-- Reverse complement of a base string, the external primitive
`vg::reverse_complement` used at main.cpp:582 and main.cpp:682. -/
def reverseComplement (l : List Char) : List Char :=
  (l.map complement).reverse

/-- Strict lexicographic order on character lists, mirroring
`std::string::operator<` which orders a `std::set<std::string>`. -/
def lexLt : List Char → List Char → Bool
  | _, [] => false
  | [], _ :: _ => true
  | a :: as, b :: bs =>
    decide (a.toNat < b.toNat) || (decide (a = b) && lexLt as bs)

/-- String order used by `std::set<std::string>` (main.cpp:317). -/
def strLt (a b : String) : Bool := lexLt a.toList b.toList

/-- Insert a token into a sorted, deduplicated token list, mirroring
`std::set<std::string>::insert`. -/
def insertTok (t : String) : List String → List String
  | [] => [t]
  | s :: rest =>
    if strLt t s then t :: s :: rest
    else if t = s then s :: rest
    else s :: insertTok t rest

/-- Build the sorted, deduplicated token set from parsed tokens, mirroring
construction of `std::set<std::string>` at main.cpp:317-319.  The resulting
list order is the set's iteration order. -/
def toTokenSet (l : List String) : List String :=
  l.foldl (fun acc t => insertTok t acc) []

/-- Splitting helper: accumulate characters of the current piece (reversed). -/
def splitCommasGo : List Char → List Char → List String
  | [], cur => [String.mk cur.reverse]
  | c :: rest, cur =>
    if c = ',' then String.mk cur.reverse :: splitCommasGo rest []
    else splitCommasGo rest (c :: cur)

/-- Split a call string on commas, mirroring the
`std::sregex_token_iterator(call.begin(), call.end(), std::regex(","), -1)`
construction at main.cpp:317-319 under libstdc++ semantics: every prefix
piece is kept (even empty), the final suffix is kept only when non-empty,
except that an input with no comma at all yields itself as the single piece
(so the empty string yields one empty token). -/
def splitCommas (s : String) : List String :=
  let parts := splitCommasGo s.toList []
  if 1 < parts.length && parts.getLastD "" == "" then parts.dropLast else parts

/-- Our opinion of one base of one node (struct `BaseCall`, main.cpp:19-69).
The C++ fixed array `char alts[2]` plus counter `numberOfAlts` is modelled as
the list of the first `numberOfAlts` entries.  The default constructor
(main.cpp:66) gives `graphBasePresent = false` and no alts. -/
structure BaseCall where
  graphBasePresent : Bool
  alts : List Char
deriving DecidableEq, Repr

/-- Worker for the `BaseCall` constructor: iterate the token set in order,
interpreting "-" as a no-op, "." as presence of the graph base, and any
other token as an alt base.  The two `assert`s at main.cpp:55-56 (alt token
is a single character; fewer than `MAX_ALTS = 2` alts stored) become the
error cases. -/
def mkBaseCallGo : List String → Bool → List Char → Except String (Bool × List Char)
  | [], present, alts => .ok (present, alts)
  | t :: rest, present, alts =>
    if t = "-" then mkBaseCallGo rest present alts
    else if t = "." then mkBaseCallGo rest true alts
    else if t.length = 1 then
      if alts.length < 2 then mkBaseCallGo rest present (alts ++ [t.toList.headD ' '])
      else .error "assert numberOfAlts < MAX_ALTS failed"
    else .error "assert alt.size() == 1 failed"

/-- The `BaseCall` constructor (main.cpp:36-61) applied to a token set given
as its sorted iteration order. -/
def mkBaseCall (l : List String) : Except String BaseCall :=
  (mkBaseCallGo l false []).map fun r => ⟨r.1, r.2⟩

/-- A graph node: identifier and sequence (vg `Node`). -/
structure Node where
  id : Int
  sequence : List Char
deriving DecidableEq, Repr

/-- An oriented traversal of a node (vg `NodeTraversal`): the node handle
itself plus a backward flag. -/
structure Traversal where
  node : Node
  backward : Bool
deriving DecidableEq, Repr

/-- The graph accessor interface (spec section 6, external): node
enumeration plus adjacency queries `nodes_prev` / `nodes_next`
(main.cpp:373,398), consumed as given data. -/
structure Graph where
  nodes : List Node
  prevOf : Int → List Traversal
  nextOf : Int → List Traversal

/-- Node lookup by id (`vg.get_node`, main.cpp:249). -/
def getNode (g : Graph) (i : Int) : Option Node :=
  g.nodes.find? fun n => n.id == i

/-- Sequence length of the node with the given id (0 when absent). -/
def seqLen (g : Graph) (i : Int) : Nat :=
  ((getNode g i).map fun n => n.sequence.length).getD 0

/-- One edit of a path mapping (vg `Edit`). -/
structure Edit where
  fromLength : Nat
  toLength : Nat
  sequence : List Char
deriving DecidableEq, Repr

/-- One mapping of the reference path (vg `Mapping`): target node,
orientation, and edit list. -/
structure Mapping where
  nodeId : Int
  isReverse : Bool
  edits : List Edit
deriving DecidableEq, Repr

/-- Perfect-match test for a mapping (`mapping_is_perfect_match`,
main.cpp:120-131): every edit has equal from/to length and an empty
substituted sequence; a mapping with no edits is a perfect match. -/
def mappingIsPerfectMatch (m : Mapping) : Bool :=
  m.edits.all fun e => e.fromLength == e.toLength && e.sequence.isEmpty

/-- State built by the reference tracing loop (main.cpp:221-267):
`placement` embeds `referencePositionAndOrientation` (newest entry first),
`nodesByRef` embeds `nodesByReference` (newest entry first, so an earlier
entry in the list shadows a later one with the same key), `refSeq` embeds
the accumulated reference string, and `referenceBase` the running
coordinate counter. -/
structure TraceState where
  placement : List (Int × Nat × Bool)
  nodesByRef : List (Nat × Traversal)
  refSeq : List Char
  referenceBase : Nat
deriving Repr

/-- Lookup in the placement table (`referencePositionAndOrientation`). -/
def pLookup : List (Int × Nat × Bool) → Int → Option (Nat × Bool)
  | [], _ => none
  | (i, c, r) :: rest, q => if i = q then some (c, r) else pLookup rest q

/-- One iteration of the reference tracing loop (main.cpp:235-264): assert
the mapping is a perfect match, record the placement on first visit, record
the coordinate-to-traversal entry, append the node sequence, and advance
the coordinate counter by the node length. -/
def traceStep (g : Graph) (st : TraceState) (m : Mapping) : Except String TraceState :=
  if !mappingIsPerfectMatch m then .error "assert mapping_is_perfect_match failed"
  else if hn : (getNode g m.nodeId).isSome then
    let node := (getNode g m.nodeId).get hn
    .ok { placement :=
            if (pLookup st.placement m.nodeId).isSome then st.placement
            else (m.nodeId, st.referenceBase, m.isReverse) :: st.placement
          nodesByRef := (st.referenceBase, ⟨node, m.isReverse⟩) :: st.nodesByRef
          refSeq := st.refSeq ++ node.sequence
          referenceBase := st.referenceBase + node.sequence.length }
  else .error "node of reference mapping not in graph"

/-- Run the tracing loop over the remaining mappings. -/
def traceGo (g : Graph) : List Mapping → TraceState → Except String TraceState
  | [], st => .ok st
  | m :: rest, st =>
    match traceStep g st m with
    | .error e => .error e
    | .ok st' => traceGo g rest st'

/-- The Reference Tracer (main.cpp:221-267): trace the whole reference path
from the empty initial state. -/
def trace (g : Graph) (ms : List Mapping) : Except String TraceState :=
  traceGo g ms ⟨[], [], [], 0⟩

/-- The call table `callsByNodeOffset` (main.cpp:282): per node id, an
ordered vector of per-base calls. -/
def CallTable : Type := List (Int × List BaseCall)

instance : DecidableEq CallTable := by
  unfold CallTable
  infer_instance

/-- Read a node's call vector; an absent key yields the empty vector,
mirroring `std::map::operator[]` default construction. -/
def ctGet : CallTable → Int → List BaseCall
  | [], _ => []
  | (i, v) :: rest, q => if i = q then v else ctGet rest q

/-- Store a node's call vector. -/
def ctSet : CallTable → Int → List BaseCall → CallTable
  | [], q, v => [(q, v)]
  | (i, w) :: rest, q, v =>
    if i = q then (q, v) :: rest else (i, w) :: ctSet rest q v

/-- Whitespace test used by `std::istream` token extraction. -/
def isWS (c : Char) : Bool :=
  c = ' ' || c = '\t' || c = '\n' || c = '\r'

/-- A `std::stringstream` being read from: remaining characters plus the
fail bit. -/
structure IStr where
  data : List Char
  fail : Bool
deriving DecidableEq, Repr

/-- Numeric value of a digit run. -/
def digitsVal (ds : List Char) : Nat :=
  ds.foldl (fun a c => a * 10 + (c.toNat - 48)) 0

/-- Raw unsigned-number read: longest digit run at the head. -/
def readNatRaw (l : List Char) : Option (Nat × List Char) :=
  let ds := l.takeWhile Char.isDigit
  if ds.isEmpty then none else some (digitsVal ds, l.dropWhile Char.isDigit)

/-- Raw signed-number read: optional minus sign then a digit run. -/
def readIntRaw (l : List Char) : Option (Int × List Char) :=
  if l.headD ' ' = '-' then (readNatRaw l.tail).map fun r => (-(r.1 : Int), r.2)
  else (readNatRaw l).map fun r => ((r.1 : Int), r.2)

/-- Extraction `tokens >> nodeId` for `int64_t` (main.cpp:299): skip leading
whitespace, read a number; on failure write 0 and set the fail bit (C++11
`num_get` semantics); on an already-failed stream do nothing, modelling the
then-unwritten C++ variable as 0. -/
def rdInt (s : IStr) : Int × IStr :=
  if s.fail then (0, s)
  else
    match readIntRaw (s.data.dropWhile isWS) with
    | some (v, rest) => (v, ⟨rest, false⟩)
    | none => (0, ⟨s.data.dropWhile isWS, true⟩)

/-- Extraction `tokens >> offset` for `size_t` (main.cpp:303), with the same
failure semantics as `rdInt`. -/
def rdNat (s : IStr) : Nat × IStr :=
  if s.fail then (0, s)
  else
    match readNatRaw (s.data.dropWhile isWS) with
    | some (v, rest) => (v, ⟨rest, false⟩)
    | none => (0, ⟨s.data.dropWhile isWS, true⟩)

/-- Extraction `tokens >> graphBase` for `char` (main.cpp:308): skip leading
whitespace and take a single character; the read value is unused by the
source, the null character stands for the unwritten variable on failure. -/
def rdChar (s : IStr) : Char × IStr :=
  if s.fail then (Char.ofNat 0, s)
  else
    match s.data.dropWhile isWS with
    | [] => (Char.ofNat 0, ⟨[], true⟩)
    | c :: rest => (c, ⟨rest, false⟩)

/-- Extraction `tokens >> call` for `std::string` (main.cpp:312): skip
leading whitespace and take the maximal run of non-whitespace characters;
on failure the variable keeps its default-constructed empty value. -/
def rdTok (s : IStr) : String × IStr :=
  if s.fail then ("", s)
  else
    let l := s.data.dropWhile isWS
    let t := l.takeWhile fun c => !isWS c
    if t.isEmpty then ("", ⟨[], true⟩)
    else (String.mk t, ⟨l.dropWhile fun c => !isWS c, false⟩)

/-- Errors arising from one Glenn-file line: an assertion failure inside the
`BaseCall` constructor, or the out-of-bounds vector write
`callsByNodeOffset[nodeId][offset]` (undefined behaviour in the source). -/
inductive GlennErr where
  | baseCallAssert (msg : String)
  | oobWrite
deriving DecidableEq, Repr

/-- One iteration of the Glenn-file parsing loop (main.cpp:286-335): skip a
blank line; extract node id, 1-based offset (then decrement in `size_t`
arithmetic), graph base and call string; split the call string into the
token set; resize the node's call vector to `offset + 1` (in `size_t`) when
too short; construct the `BaseCall` (the right-hand side of the assignment,
evaluated first) and store it at `offset`. -/
def processGlennLine (line : String) (tbl : CallTable) : Except GlennErr CallTable :=
  if line = "" then .ok tbl
  else
    let s0 : IStr := ⟨line.toList, false⟩
    let r1 := rdInt s0
    let nodeId := r1.1
    let r2 := rdNat r1.2
    let offset := (r2.1 + (usizeMod - 1)) % usizeMod
    let r3 := rdChar r2.2
    let r4 := rdTok r3.2
    let callTokens := toTokenSet (splitCommas r4.1)
    let vec := ctGet tbl nodeId
    let newLen := (offset + 1) % usizeMod
    let vec := if vec.length ≤ offset then
        vec.take newLen ++ List.replicate (newLen - vec.length) ⟨false, []⟩
      else vec
    match mkBaseCall callTokens with
    | .error e => .error (.baseCallAssert e)
    | .ok bc =>
      if offset < vec.length then .ok (ctSet tbl nodeId (vec.set offset bc))
      else .error .oobWrite

/-- Helper for listing a line's whitespace-separated tokens (used to state
claims about malformed lines): accumulate the current token reversed. -/
def wsTokensGo : List Char → List Char → List String
  | [], cur => if cur.isEmpty then [] else [String.mk cur.reverse]
  | c :: rest, cur =>
    if isWS c then
      if cur.isEmpty then wsTokensGo rest []
      else String.mk cur.reverse :: wsTokensGo rest []
    else wsTokensGo rest (c :: cur)

/-- The whitespace-separated tokens of a line. -/
def wsTokens (s : String) : List String := wsTokensGo s.toList []

/-- A VCF variant record as constructed by the source (position is 1-based;
quality is always 0; the genotype string is the single sample's GT value). -/
structure Variant where
  position : Nat
  refAllele : List Char
  altAlleles : List (List Char)
  genotype : String
  quality : Nat
deriving DecidableEq, Repr

/-- Runtime errors of the synthesis passes: out-of-bounds indexing of a call
vector (`callsByNodeOffset[id][i]` with `i` past the vector end, undefined
behaviour in the source), the `assert(refNodeResult != nodesByReference.end())`
failure (main.cpp:549), exhaustion of the fuel that stands in for the
source's unbounded while loop, and the `throw std::runtime_error` for a
semantically invalid `BaseCall` (main.cpp:712). -/
inductive RunErr where
  | oobCall
  | assertEnd
  | fuelOut
  | invalidCall
deriving DecidableEq, Repr

/-- Lookup of `nodesByReference.lower_bound(q)` (main.cpp:546): the map is
sorted descending, so `lower_bound` yields the entry with the greatest key
that is not greater than the query.  On duplicate keys the entry nearest the
front of the list (the newest) wins, mirroring map overwrite. -/
def floorLookup : List (Nat × Traversal) → Nat → Option (Nat × Traversal)
  | [], _ => none
  | e :: rest, q =>
    let b := floorLookup rest q
    if e.1 ≤ q then
      if ((b.map fun x => x.1).getD 0) ≤ e.1 then some e else b
    else b

/-- Selection of the leftmost reference-anchored neighbour (main.cpp:376-394
and main.cpp:401-419): iterate the candidate traversals, keeping the one
whose placement coordinate is smallest, starting from the null traversal at
position `(size_t) -1`. -/
def findLeftmost (pl : List (Int × Nat × Bool)) (cands : List Traversal) :
    Option Traversal × Nat :=
  cands.foldl
    (fun best c =>
      match pLookup pl c.node.id with
      | none => best
      | some pr => if pr.1 < best.2 then (some c, pr.1) else best)
    (none, usizeMax)

/-- Orientation normalization (main.cpp:435-466): compute `readInForward` and
`readOutForward`; if they disagree the node inverts the reference
(`none`); otherwise, when both are backward, swap the anchor roles and mark
the alt node itself backward.  Returns (in anchor, out anchor, in placement,
out placement, alt node backward). -/
def normalizeAnchors (inT outT : Traversal) (pIn pOut : Nat × Bool) :
    Option (Traversal × Traversal × (Nat × Bool) × (Nat × Bool) × Bool) :=
  let readInForward := inT.backward == pIn.2
  let readOutForward := outT.backward == pOut.2
  if readInForward != readOutForward then none
  else if readInForward then some (inT, outT, pIn, pOut, false)
  else some (outT, inT, pOut, pIn, true)

/-- The zygosity scan (main.cpp:537-569): walk the replaced reference
interval node by node via `nodesByReference.lower_bound`, and accumulate
whether any base of the span is called present or carries an alt
(`call.graphBasePresent || call.numberOfAlts > 0`).  The source's while loop
advances by whole node lengths; the fuel argument only stands in for its
unbounded iteration and suffices whenever node sequences are non-empty. -/
def scanRef (nbr : List (Nat × Traversal)) (calls : CallTable) (pastEnd : Nat) :
    Nat → Nat → Bool → Except RunErr Bool
  | fuel, refPos, acc =>
    if pastEnd ≤ refPos then .ok acc
    else
      match fuel with
      | 0 => .error .fuelOut
      | f + 1 =>
        match floorLookup nbr refPos with
        | none => .error .assertEnd
        | some e =>
          let len := e.2.node.sequence.length
          let cv := ctGet calls e.2.node.id
          if len ≤ cv.length then
            scanRef nbr calls pastEnd f (refPos + len)
              (acc || (cv.take len).any fun c => c.graphBasePresent || !c.alts.isEmpty)
          else .error .oobCall

/-- Outcome of the bubble synthesis for one node (main.cpp:357-631): each
skip branch carries the node id written to the diagnostic log; `fatalAssert`
marks the `assert` failures; `scanError` propagates a zygosity-scan error;
`emit` carries the single variant record written to the output. -/
inductive BubbleResult where
  | skipReference (nodeId : Int)
  | skipUnanchored (nodeId : Int)
  | skipInverts (nodeId : Int)
  | skipDuplication (nodeId : Int)
  | skipAbsent (nodeId : Int)
  | skipPartial (nodeId : Int)
  | fatalAssert (msg : String)
  | scanError (e : RunErr)
  | emit (v : Variant)
deriving DecidableEq, Repr

/-- The Bubble Variant Synthesizer body for one graph node
(main.cpp:357-631): skip reference nodes; find the leftmost reference
anchors on both sides; check orientation consistency and normalize; reject
duplication (out anchor not strictly to the right); compute the replaced
reference interval; check the node's own calls (fully / partly present);
run the zygosity scan; build ref and alt alleles, left-shifting pure
insertions by one anchoring base; and emit one variant with genotype
"1/0" when the reference interval was seen, else "1/1". -/
def processNode (g : Graph) (pl : List (Int × Nat × Bool))
    (nbr : List (Nat × Traversal)) (refSeq : List Char) (calls : CallTable)
    (node : Node) : BubbleResult :=
  match pLookup pl node.id with
  | some _ => .skipReference node.id
  | none =>
    match findLeftmost pl (g.prevOf node.id), findLeftmost pl (g.nextOf node.id) with
    | (some inT, _), (some outT, _) =>
      match pLookup pl inT.node.id, pLookup pl outT.node.id with
      | some pIn, some pOut =>
        match normalizeAnchors inT outT pIn pOut with
        | none => .skipInverts node.id
        | some (inT', _outT', pIn', pOut', altBw) =>
          if pOut'.1 ≤ pIn'.1 then .skipDuplication node.id
          else
            let start := pIn'.1 + inT'.node.sequence.length
            let pastEnd := pOut'.1
            if pastEnd < start then .fatalAssert "interval past end before start"
            else
              let sz := pastEnd - start
              let cv := ctGet calls node.id
              if !cv.any (·.graphBasePresent) then .skipAbsent node.id
              else if !cv.all (·.graphBasePresent) then .skipPartial node.id
              else
                match scanRef nbr calls pastEnd (pastEnd - start) start false with
                | .error e => .scanError e
                | .ok refPathExists =>
                  let gt := if refPathExists then "1/0" else "1/1"
                  let refAllele := (refSeq.drop start).take sz
                  let altAllele :=
                    if altBw then reverseComplement node.sequence else node.sequence
                  if refAllele.length = 0 then
                    if start = 0 then .fatalAssert "insertion at reference start"
                    else
                      let b := refSeq.getD (start - 1) '?'
                      .emit ⟨start - 1 + 1, [b], [b :: altAllele], gt, 0⟩
                  else .emit ⟨start + 1, refAllele, [altAllele], gt, 0⟩
      | _, _ => .fatalAssert "placement at() failed"
    | _, _ => .skipUnanchored node.id

/-- Genotype selection of the Reference-SNP Synthesizer (main.cpp:697-713):
present graph base means "1/0"; otherwise one alt means "1/1", two alts
"1/2"; anything else throws. -/
def snpGT (call : BaseCall) : Option String :=
  if call.graphBasePresent then some "1/0"
  else if call.alts.length = 1 then some "1/1"
  else if call.alts.length = 2 then some "1/2"
  else none

/-- The variant built for one qualifying base offset of a reference node
(main.cpp:652-713): position is the absolute reference coordinate plus one,
where a node reverse in the reference maps offset `i` to
`coordinate + (length - i - 1)` and a forward node to `coordinate + i`; the
reference allele is the single reference base there; each alt base is
reverse-complemented exactly when the node is reverse. -/
def snpVariant (pr : Nat × Bool) (refSeq : List Char) (node : Node) (i : Nat)
    (call : BaseCall) (gt : String) : Variant :=
  let refPos := pr.1 + (if pr.2 then node.sequence.length - i - 1 else i)
  ⟨refPos + 1, [refSeq.getD refPos '?'],
    call.alts.map fun a => if pr.2 then [complement a] else [a], gt, 0⟩

/-- Worker of the Reference-SNP Synthesizer: visit the given base offsets in
order, read each call (out-of-bounds read of the call vector is an error),
skip offsets with no alts, and emit one variant per qualifying offset. -/
def snpGo (pr : Nat × Bool) (refSeq : List Char) (node : Node)
    (cv : List BaseCall) : List Nat → Except RunErr (List Variant)
  | [] => .ok []
  | i :: rest =>
    match cv.get? i with
    | none => .error .oobCall
    | some call =>
      if call.alts.length = 0 then snpGo pr refSeq node cv rest
      else
        match snpGT call with
        | none => .error .invalidCall
        | some gt =>
          (snpGo pr refSeq node cv rest).map fun vs =>
            snpVariant pr refSeq node i call gt :: vs

/-- The Reference-SNP Synthesizer body for one graph node (main.cpp:633-731):
non-reference nodes are skipped; a reference node is scanned at every base
offset `0 ≤ i <` sequence length. -/
def snpForNode (pl : List (Int × Nat × Bool)) (refSeq : List Char)
    (calls : CallTable) (node : Node) : Except RunErr (List Variant) :=
  match pLookup pl node.id with
  | none => .ok []
  | some pr =>
    snpGo pr refSeq node (ctGet calls node.id) (List.range node.sequence.length)

/-! ## Claim C7: interpretation of call token sets -/

/-- The alt character a token contributes: none for the special tokens "-"
and ".", the single character of a single-character token. -/
def altChar (t : String) : Option Char :=
  if t = "-" then none
  else if t = "." then none
  else if t.length = 1 then some (t.toList.headD ' ')
  else none

/-- All alt characters contributed by a token list, in list order. -/
def altChars (l : List String) : List Char := l.filterMap altChar

lemma mkBaseCallGo_ok (l : List String) :
    ∀ (p : Bool) (a : List Char),
      (∀ t ∈ l, t = "-" ∨ t = "." ∨ t.length = 1) →
      a.length + (altChars l).length ≤ 2 →
      mkBaseCallGo l p a = .ok (p || l.contains ".", a ++ altChars l) := by
  induction l with
  | nil => intro p a _ _; simp [mkBaseCallGo, altChars]
  | cons t rest ih =>
    intro p a hwf hlen
    by_cases hdash : t = "-"
    · subst hdash
      have hac : altChars ("-" :: rest) = altChars rest := by
        simp [altChars, altChar]
      rw [hac] at hlen
      rw [mkBaseCallGo, if_pos rfl, ih p a (fun u hu => hwf u (by simp [hu])) hlen]
      simp [List.contains_cons, hac]
    · by_cases hdot : t = "."
      · subst hdot
        have hac : altChars ("." :: rest) = altChars rest := by
          simp [altChars, altChar]
        rw [hac] at hlen
        rw [mkBaseCallGo, if_neg (by simp), if_pos rfl,
          ih true a (fun u hu => hwf u (by simp [hu])) hlen]
        simp [List.contains_cons, hac]
      · have hone : t.length = 1 := by
          rcases hwf t (by simp) with h | h | h
          · exact absurd h hdash
          · exact absurd h hdot
          · exact h
        have hat : altChar t = some (t.toList.headD ' ') := by
          rw [altChar, if_neg hdash, if_neg hdot, if_pos hone]
        have hac : altChars (t :: rest) = t.toList.headD ' ' :: altChars rest := by
          simp [altChars, List.filterMap_cons, hat]
        rw [hac] at hlen
        have hlt : a.length < 2 := by simp at hlen; omega
        rw [mkBaseCallGo, if_neg hdash, if_neg hdot, if_pos hone, if_pos hlt,
          ih p (a ++ [t.toList.headD ' ']) (fun u hu => hwf u (by simp [hu]))
            (by simp at hlen ⊢; omega)]
        simp [List.contains_cons, hac, Ne.symm hdot]

lemma mkBaseCallGo_err (l : List String) :
    ∀ (p : Bool) (a : List Char),
      a.length ≤ 2 →
      ((∃ t ∈ l, t ≠ "-" ∧ t ≠ "." ∧ t.length ≠ 1) ∨
        2 < a.length + (altChars l).length) →
      ∃ e, mkBaseCallGo l p a = .error e := by
  induction l with
  | nil =>
    intro p a ha h
    rcases h with ⟨t, ht, _⟩ | h
    · exact absurd ht (List.not_mem_nil t)
    · simp [altChars] at h; omega
  | cons t rest ih =>
    intro p a ha h
    by_cases hdash : t = "-"
    · subst hdash
      rw [mkBaseCallGo, if_pos rfl]
      apply ih p a ha
      rcases h with ⟨u, hu, h1, h2, h3⟩ | h
      · rcases List.mem_cons.mp hu with rfl | hu
        · exact absurd rfl h1
        · exact Or.inl ⟨u, hu, h1, h2, h3⟩
      · have hac : altChars ("-" :: rest) = altChars rest := by simp [altChars, altChar]
        rw [hac] at h
        exact Or.inr h
    · by_cases hdot : t = "."
      · subst hdot
        rw [mkBaseCallGo, if_neg (by simp), if_pos rfl]
        apply ih true a ha
        rcases h with ⟨u, hu, h1, h2, h3⟩ | h
        · rcases List.mem_cons.mp hu with rfl | hu
          · exact absurd rfl h2
          · exact Or.inl ⟨u, hu, h1, h2, h3⟩
        · have hac : altChars ("." :: rest) = altChars rest := by simp [altChars, altChar]
          rw [hac] at h
          exact Or.inr h
      · by_cases hone : t.length = 1
        · have hat : altChar t = some (t.toList.headD ' ') := by
            rw [altChar, if_neg hdash, if_neg hdot, if_pos hone]
          have hac : altChars (t :: rest) = t.toList.headD ' ' :: altChars rest := by
            simp [altChars, List.filterMap_cons, hat]
          by_cases hlt : a.length < 2
          · rw [mkBaseCallGo, if_neg hdash, if_neg hdot, if_pos hone, if_pos hlt]
            apply ih p (a ++ [t.toList.headD ' ']) (by simp; omega)
            rcases h with ⟨u, hu, h1, h2, h3⟩ | h
            · rcases List.mem_cons.mp hu with rfl | hu
              · exact absurd hone h3
              · exact Or.inl ⟨u, hu, h1, h2, h3⟩
            · rw [hac] at h
              simp at h ⊢
              omega
          · rw [mkBaseCallGo, if_neg hdash, if_neg hdot, if_pos hone, if_neg hlt]
            exact ⟨_, rfl⟩
        · rw [mkBaseCallGo, if_neg hdash, if_neg hdot, if_neg hone]
          exact ⟨_, rfl⟩

/-- C7: the `BaseCall` constructor has `graphBasePresent` true exactly when
the token set contains ".", ignores every "-" token, and records each other
single-character token as an alt base with at most 2 alts; the token sets
from the spec's examples yield (present, alts=[A]) and (absent, no alts);
a third distinct alt or a multi-character alt token is a fatal error. -/
theorem basecall_token_interpretation :
    (∀ l : List String,
      (∀ t ∈ l, t = "-" ∨ t = "." ∨ t.length = 1) →
      (altChars l).length ≤ 2 →
      mkBaseCall l = .ok ⟨l.contains ".", altChars l⟩) ∧
    mkBaseCall (toTokenSet [".", "A"]) = .ok ⟨true, ['A']⟩ ∧
    mkBaseCall (toTokenSet ["-", "-"]) = .ok ⟨false, []⟩ ∧
    (∀ l : List String,
      ((∃ t ∈ l, t ≠ "-" ∧ t ≠ "." ∧ t.length ≠ 1) ∨
        2 < (altChars l).length) →
      ∃ e, mkBaseCall l = .error e) := by
  refine ⟨fun l hwf hlen => ?_, rfl, rfl, fun l h => ?_⟩
  · rw [mkBaseCall, mkBaseCallGo_ok l false [] hwf (by simpa using hlen)]
    rfl
  · obtain ⟨e, he⟩ := mkBaseCallGo_err l false [] (by simp) (by simpa using h)
    exact ⟨e, by rw [mkBaseCall, he]; rfl⟩

/-- Witness for C7 at concrete inputs: a lone alt token "G" is recorded as
an alt with the graph base absent, and three distinct alts are rejected. -/
theorem basecall_token_interpretation_witness :
    mkBaseCall ["G"] = .ok ⟨(["G"] : List String).contains ".", altChars ["G"]⟩ ∧
    ∃ e, mkBaseCall ["A", "C", "G"] = .error e :=
  ⟨basecall_token_interpretation.1 ["G"] (by decide) (by decide),
   basecall_token_interpretation.2.2.2 ["A", "C", "G"] (Or.inr (by decide))⟩

/-! ## Claim C9: call-vector indexing bounds in the two scan passes -/

lemma floorLookup_mem {l : List (Nat × Traversal)} {q : Nat} {e : Nat × Traversal}
    (h : floorLookup l q = some e) : e ∈ l := by
  induction l with
  | nil => simp [floorLookup] at h
  | cons x rest ih =>
    rw [floorLookup] at h
    by_cases hx : x.1 ≤ q
    · rw [if_pos hx] at h
      by_cases hle :
          (((floorLookup rest q).map fun x => x.1).getD 0) ≤ x.1
      · rw [if_pos hle] at h
        simp [← Option.some_inj.mp h]
      · rw [if_neg hle] at h
        exact List.mem_cons_of_mem x (ih h)
    · rw [if_neg hx] at h
      exact List.mem_cons_of_mem x (ih h)

lemma scanRef_no_oob (nbr : List (Nat × Traversal)) (calls : CallTable) (pastEnd : Nat)
    (hcov : ∀ e ∈ nbr, e.2.node.sequence.length ≤ (ctGet calls e.2.node.id).length) :
    ∀ (fuel refPos : Nat) (acc : Bool),
      scanRef nbr calls pastEnd fuel refPos acc ≠ .error .oobCall := by
  intro fuel
  induction fuel with
  | zero =>
    intro refPos acc
    rw [scanRef]
    by_cases h : pastEnd ≤ refPos
    · simp [h]
    · simp [h]
  | succ f ih =>
    intro refPos acc
    rw [scanRef]
    by_cases h : pastEnd ≤ refPos
    · simp [h]
    · rw [if_neg h]
      cases hfl : floorLookup nbr refPos with
      | none => simp
      | some e =>
        simp only []
        rw [if_pos (hcov e (floorLookup_mem hfl))]
        exact ih _ _

lemma snpGo_no_oob (pr : Nat × Bool) (refSeq : List Char) (node : Node)
    (cv : List BaseCall) :
    ∀ idxs : List Nat, (∀ i ∈ idxs, i < cv.length) →
      snpGo pr refSeq node cv idxs ≠ .error .oobCall := by
  intro idxs
  induction idxs with
  | nil => intro _; simp [snpGo]
  | cons i rest ih =>
    intro hall
    rw [snpGo]
    rw [List.get?_eq_get (hall i (by simp))]
    simp only []
    by_cases hz : (cv.get ⟨i, hall i (by simp)⟩).alts.length = 0
    · rw [if_pos hz]
      exact ih fun j hj => hall j (by simp [hj])
    · rw [if_neg hz]
      cases hgt : snpGT (cv.get ⟨i, hall i (by simp)⟩) with
      | none => simp
      | some gt =>
        simp only []
        cases hrec : snpGo pr refSeq node cv rest with
        | error e =>
          have hne := ih (fun j hj => hall j (by simp [hj]))
          rw [hrec] at hne
          simpa [Except.map] using hne
        | ok vs => simp [Except.map]

/-- C9: both the zygosity scan and the reference-SNP pass read the per-node
call vector at every base offset of the scanned reference node; the
Option-valued lookup of the embedding never produces the out-of-bounds
error when the call table has an entry for every base of every reference
node scanned, and a call table that omits a base of a scanned reference
node drives both passes into the out-of-bounds error. -/
theorem call_lookup_bounds :
    (∀ (nbr : List (Nat × Traversal)) (calls : CallTable) (pastEnd fuel refPos : Nat)
        (acc : Bool),
      (∀ e ∈ nbr, e.2.node.sequence.length ≤ (ctGet calls e.2.node.id).length) →
      scanRef nbr calls pastEnd fuel refPos acc ≠ .error .oobCall) ∧
    (∀ (pl : List (Int × Nat × Bool)) (refSeq : List Char) (calls : CallTable)
        (node : Node) (pr : Nat × Bool),
      pLookup pl node.id = some pr →
      node.sequence.length ≤ (ctGet calls node.id).length →
      snpForNode pl refSeq calls node ≠ .error .oobCall) ∧
    scanRef [(0, ⟨⟨1, ['A', 'C']⟩, false⟩)] [(1, [⟨true, []⟩])] 2 2 0 false =
      .error .oobCall ∧
    snpForNode [(1, 0, false)] ['A', 'C'] [(1, [⟨true, []⟩])] ⟨1, ['A', 'C']⟩ =
      .error .oobCall := by
  refine ⟨fun nbr calls pastEnd fuel refPos acc hcov =>
    scanRef_no_oob nbr calls pastEnd hcov fuel refPos acc,
    fun pl refSeq calls node pr hpl hcov => ?_, rfl, rfl⟩
  rw [snpForNode, hpl]
  exact snpGo_no_oob pr refSeq node (ctGet calls node.id) _
    fun i hi => lt_of_lt_of_le (List.mem_range.mp hi) hcov

/-- Witness for C9: with full per-base coverage of the single reference
node, neither pass reaches the out-of-bounds error. -/
theorem call_lookup_bounds_witness :
    scanRef [(0, ⟨⟨1, ['A']⟩, false⟩)] [(1, [⟨false, []⟩])] 1 1 0 false ≠
      .error .oobCall ∧
    snpForNode [(1, 0, false)] ['A'] [(1, [⟨false, []⟩])] ⟨1, ['A']⟩ ≠
      .error .oobCall :=
  ⟨call_lookup_bounds.1 [(0, ⟨⟨1, ['A']⟩, false⟩)] [(1, [⟨false, []⟩])] 1 1 0 false
      (by decide),
   call_lookup_bounds.2.1 [(1, 0, false)] ['A'] [(1, [⟨false, []⟩])] ⟨1, ['A']⟩
      (0, false) (by decide) (by decide)⟩


/-! ## Claims C10 and C8: properties of the reference trace -/

/-- Total sequence length of a mapping list. -/
def totalLen (g : Graph) (ms : List Mapping) : Nat :=
  (ms.map fun m => seqLen g m.nodeId).sum

/-- The placements the trace is expected to record when every node of the
path is fresh: one entry per mapping, at the running partial sum of node
lengths, in traversal order. -/
def expectedPlacements (g : Graph) : List Mapping → Nat → List (Int × Nat × Bool)
  | [], _ => []
  | m :: rest, acc =>
    (m.nodeId, acc, m.isReverse) :: expectedPlacements g rest (acc + seqLen g m.nodeId)

/-- The placement of a node at its first visit along the path, starting the
coordinate counter at `acc`. -/
def firstPlace (g : Graph) (id : Int) : List Mapping → Nat → Option (Nat × Bool)
  | [], _ => none
  | m :: rest, acc =>
    if m.nodeId = id then some (acc, m.isReverse)
    else firstPlace g id rest (acc + seqLen g m.nodeId)

lemma traceStep_ok {g : Graph} {st st' : TraceState} {m : Mapping}
    (h : traceStep g st m = .ok st') :
    ∃ node, getNode g m.nodeId = some node ∧
      st' = { placement :=
                if (pLookup st.placement m.nodeId).isSome then st.placement
                else (m.nodeId, st.referenceBase, m.isReverse) :: st.placement
              nodesByRef := (st.referenceBase, ⟨node, m.isReverse⟩) :: st.nodesByRef
              refSeq := st.refSeq ++ node.sequence
              referenceBase := st.referenceBase + node.sequence.length } := by
  rw [traceStep] at h
  by_cases hp : mappingIsPerfectMatch m
  · rw [if_neg (by simp [hp])] at h
    by_cases hn : (getNode g m.nodeId).isSome
    · rw [dif_pos hn] at h
      refine ⟨(getNode g m.nodeId).get hn, by simp, ?_⟩
      simpa using h.symm
    · rw [dif_neg hn] at h
      exact absurd h (by simp)
  · rw [if_pos (by simp [hp])] at h
    exact absurd h (by simp)

lemma seqLen_of_getNode {g : Graph} {i : Int} {node : Node}
    (h : getNode g i = some node) : seqLen g i = node.sequence.length := by
  rw [seqLen, h]
  rfl

lemma traceGo_counter (g : Graph) :
    ∀ (ms : List Mapping) (st st' : TraceState),
      traceGo g ms st = .ok st' →
      st'.referenceBase = st.referenceBase + totalLen g ms ∧
      st'.refSeq.length = st.refSeq.length + totalLen g ms := by
  intro ms
  induction ms with
  | nil =>
    intro st st' h
    rw [traceGo] at h
    obtain rfl : st = st' := by simpa using h
    simp [totalLen]
  | cons m rest ih =>
    intro st st' h
    rw [traceGo] at h
    cases hstep : traceStep g st m with
    | error e => rw [hstep] at h; exact absurd h (by simp)
    | ok st1 =>
      rw [hstep] at h
      obtain ⟨node, hn, hst1⟩ := traceStep_ok hstep
      obtain ⟨h1, h2⟩ := ih st1 st' h
      subst hst1
      refine ⟨?_, ?_⟩
      · rw [h1]
        simp [totalLen, seqLen_of_getNode hn]
        omega
      · rw [h2]
        simp [totalLen, seqLen_of_getNode hn]
        omega

lemma traceGo_spaced (g : Graph) :
    ∀ (ms : List Mapping) (st st' : TraceState),
      traceGo g ms st = .ok st' →
      (∀ e ∈ st.placement, e.2.1 + seqLen g e.1 ≤ st.referenceBase) →
      (∀ e1 ∈ st.placement, ∀ e2 ∈ st.placement,
        e1.2.1 < e2.2.1 → e1.2.1 + seqLen g e1.1 ≤ e2.2.1) →
      (∀ e ∈ st'.placement, e.2.1 + seqLen g e.1 ≤ st'.referenceBase) ∧
      (∀ e1 ∈ st'.placement, ∀ e2 ∈ st'.placement,
        e1.2.1 < e2.2.1 → e1.2.1 + seqLen g e1.1 ≤ e2.2.1) := by
  intro ms
  induction ms with
  | nil =>
    intro st st' h hub hsp
    rw [traceGo] at h
    obtain rfl : st = st' := by simpa using h
    exact ⟨hub, hsp⟩
  | cons m rest ih =>
    intro st st' h hub hsp
    rw [traceGo] at h
    cases hstep : traceStep g st m with
    | error e => rw [hstep] at h; exact absurd h (by simp)
    | ok st1 =>
      rw [hstep] at h
      obtain ⟨node, hn, hst1⟩ := traceStep_ok hstep
      apply ih st1 st' h
      · subst hst1
        by_cases hfresh : (pLookup st.placement m.nodeId).isSome
        · rw [if_pos hfresh]
          intro e he
          exact le_trans (hub e he) (Nat.le_add_right _ _)
        · rw [if_neg hfresh]
          intro e he
          rcases List.mem_cons.mp he with rfl | he
          · simp [seqLen_of_getNode hn]
          · exact le_trans (hub e he) (Nat.le_add_right _ _)
      · subst hst1
        by_cases hfresh : (pLookup st.placement m.nodeId).isSome
        · rw [if_pos hfresh]
          exact hsp
        · rw [if_neg hfresh]
          intro e1 he1 e2 he2 hlt
          rcases List.mem_cons.mp he1 with rfl | he1 <;>
            rcases List.mem_cons.mp he2 with he2' | he2
          · rw [he2'] at hlt
            exact absurd hlt (lt_irrefl _)
          · exact absurd hlt
              (Nat.not_lt.mpr (le_trans (Nat.le_add_right _ _) (hub e2 he2)))
          · rw [he2']
            exact hub e1 he1
          · exact hsp e1 he1 e2 he2 hlt

lemma pLookup_mem :
    ∀ (pl : List (Int × Nat × Bool)) (i : Int) (c : Nat) (r : Bool),
      pLookup pl i = some (c, r) → (i, c, r) ∈ pl := by
  intro pl
  induction pl with
  | nil => intro i c r h; simp [pLookup] at h
  | cons x rest ih =>
    intro i c r h
    rw [pLookup] at h
    by_cases hx : x.1 = i
    · rw [if_pos hx] at h
      have hx2 : x = (i, c, r) := by
        obtain ⟨x1, x2, x3⟩ := x
        simp only [Prod.mk.injEq] at hx h ⊢
        simp at h
        exact ⟨hx, h.1, h.2⟩
      rw [hx2]
      exact List.mem_cons_self _ _
    · rw [if_neg hx] at h
      exact List.mem_cons_of_mem x (ih i c r h)

/-- C10: for any two nodes placed by the reference trace, if the second
placement coordinate is strictly greater than the first (the duplication
check of main.cpp:468), then it is at least the first coordinate plus the
first node's sequence length — exactly the inequality asserted at
main.cpp:481, so the replaced reference interval
`[inAnchor.coordinate + inAnchor.length, outAnchor.coordinate)` is
well formed. -/
theorem interval_bounds_assert (g : Graph) (ms : List Mapping) (st : TraceState)
    (inId outId : Int) (cIn cOut : Nat) (rIn rOut : Bool)
    (htr : trace g ms = .ok st)
    (hin : pLookup st.placement inId = some (cIn, rIn))
    (hout : pLookup st.placement outId = some (cOut, rOut))
    (hdup : cIn < cOut) :
    cIn + seqLen g inId ≤ cOut := by
  have hsp := (traceGo_spaced g ms ⟨[], [], [], 0⟩ st htr
    (by intro e he; simp at he) (by intro e1 he1; simp at he1)).2
  exact hsp (inId, cIn, rIn) (pLookup_mem _ _ _ _ hin)
    (outId, cOut, rOut) (pLookup_mem _ _ _ _ hout) hdup

/-- Concrete fixture node: reference node 1 with sequence "A". -/
def wNode1 : Node := ⟨1, ['A']⟩

/-- Concrete fixture node: bubble node 2 with sequence "T". -/
def wNode2 : Node := ⟨2, ['T']⟩

/-- Concrete fixture node: reference node 3 with sequence "G". -/
def wNode3 : Node := ⟨3, ['G']⟩

/-- Concrete fixture node: reference node 4 with sequence "C". -/
def wNode4 : Node := ⟨4, ['C']⟩

/-- Concrete fixture graph: reference path 1 → 4 → 3 ("ACG") with bubble
node 2 attached between nodes 1 and 3 (an alternative to node 4). -/
def wGraph : Graph :=
  ⟨[wNode1, wNode2, wNode3, wNode4],
    fun i => if i = 2 then [⟨wNode1, false⟩] else [],
    fun i => if i = 2 then [⟨wNode3, false⟩] else []⟩

/-- Concrete fixture reference path of `wGraph`. -/
def wPath : List Mapping := [⟨1, false, []⟩, ⟨4, false, []⟩, ⟨3, false, []⟩]

/-- The trace state produced by tracing `wPath` over `wGraph`. -/
def wState : TraceState :=
  ⟨[(3, 2, false), (4, 1, false), (1, 0, false)],
    [(2, ⟨wNode3, false⟩), (1, ⟨wNode4, false⟩), (0, ⟨wNode1, false⟩)],
    ['A', 'C', 'G'], 3⟩

/-- Witness for C10 on the fixture trace: node 3 is placed after node 1, and
the asserted inequality holds there. -/
theorem interval_bounds_assert_witness : (0 : Nat) + seqLen wGraph 1 ≤ 2 :=
  interval_bounds_assert wGraph wPath wState 1 3 0 2 false false rfl rfl rfl
    (by decide)

lemma traceGo_pLookup_pres (g : Graph) :
    ∀ (ms : List Mapping) (st st' : TraceState) (id : Int) (v : Nat × Bool),
      traceGo g ms st = .ok st' →
      pLookup st.placement id = some v →
      pLookup st'.placement id = some v := by
  intro ms
  induction ms with
  | nil =>
    intro st st' id v h hv
    rw [traceGo] at h
    obtain rfl : st = st' := by simpa using h
    exact hv
  | cons m rest ih =>
    intro st st' id v h hv
    rw [traceGo] at h
    cases hstep : traceStep g st m with
    | error e => rw [hstep] at h; exact absurd h (by simp)
    | ok st1 =>
      rw [hstep] at h
      obtain ⟨node, hn, hst1⟩ := traceStep_ok hstep
      apply ih st1 st' id v h
      subst hst1
      by_cases hfresh : (pLookup st.placement m.nodeId).isSome
      · rw [if_pos hfresh]
        exact hv
      · rw [if_neg hfresh]
        simp only [pLookup]
        by_cases hid : m.nodeId = id
        · rw [hid, hv] at hfresh
          exact (hfresh rfl).elim
        · rw [if_neg hid]
          exact hv

lemma traceGo_firstPlace (g : Graph) :
    ∀ (ms : List Mapping) (st st' : TraceState) (id : Int),
      traceGo g ms st = .ok st' →
      pLookup st.placement id = none →
      pLookup st'.placement id = firstPlace g id ms st.referenceBase := by
  intro ms
  induction ms with
  | nil =>
    intro st st' id h hnone
    rw [traceGo] at h
    obtain rfl : st = st' := by simpa using h
    rw [firstPlace]
    exact hnone
  | cons m rest ih =>
    intro st st' id h hnone
    rw [traceGo] at h
    cases hstep : traceStep g st m with
    | error e => rw [hstep] at h; exact absurd h (by simp)
    | ok st1 =>
      rw [hstep] at h
      obtain ⟨node, hn, hst1⟩ := traceStep_ok hstep
      rw [firstPlace]
      by_cases hid : m.nodeId = id
      · rw [if_pos hid]
        have hfresh : ¬(pLookup st.placement m.nodeId).isSome := by
          rw [hid, hnone]
          simp
        have hst1pl : pLookup st1.placement id = some (st.referenceBase, m.isReverse) := by
          subst hst1
          rw [if_neg hfresh]
          simp only [pLookup]
          rw [if_pos hid]
        exact traceGo_pLookup_pres g rest st1 st' id _ h hst1pl
      · rw [if_neg hid]
        have hst1pl : pLookup st1.placement id = none := by
          subst hst1
          by_cases hfresh : (pLookup st.placement m.nodeId).isSome
          · rw [if_pos hfresh]
            exact hnone
          · rw [if_neg hfresh]
            simp only [pLookup]
            rw [if_neg hid]
            exact hnone
        have hrb : st1.referenceBase = st.referenceBase + seqLen g m.nodeId := by
          subst hst1
          simp [seqLen_of_getNode hn]
        rw [← hrb]
        exact ih st1 st' id h hst1pl

lemma traceGo_expected (g : Graph) :
    ∀ (ms : List Mapping) (st st' : TraceState),
      traceGo g ms st = .ok st' →
      (ms.map fun m => m.nodeId).Nodup →
      (∀ m ∈ ms, pLookup st.placement m.nodeId = none) →
      st'.placement = (expectedPlacements g ms st.referenceBase).reverse ++ st.placement := by
  intro ms
  induction ms with
  | nil =>
    intro st st' h _ _
    rw [traceGo] at h
    obtain rfl : st = st' := by simpa using h
    simp [expectedPlacements]
  | cons m rest ih =>
    intro st st' h hnd hfr
    rw [traceGo] at h
    cases hstep : traceStep g st m with
    | error e => rw [hstep] at h; exact absurd h (by simp)
    | ok st1 =>
      rw [hstep] at h
      obtain ⟨node, hn, hst1⟩ := traceStep_ok hstep
      have hfresh : ¬(pLookup st.placement m.nodeId).isSome := by
        rw [hfr m (by simp)]
        simp
      have hpl1 : st1.placement = (m.nodeId, st.referenceBase, m.isReverse) :: st.placement := by
        subst hst1
        rw [if_neg hfresh]
      have hrb1 : st1.referenceBase = st.referenceBase + seqLen g m.nodeId := by
        subst hst1
        simp [seqLen_of_getNode hn]
      have hnd' : (rest.map fun m => m.nodeId).Nodup := by
        simp only [List.map_cons, List.nodup_cons] at hnd
        exact hnd.2
      have hhead : m.nodeId ∉ rest.map fun m => m.nodeId := by
        simp only [List.map_cons, List.nodup_cons] at hnd
        exact hnd.1
      have hfr' : ∀ m' ∈ rest, pLookup st1.placement m'.nodeId = none := by
        intro m' hm'
        rw [hpl1]
        simp only [pLookup]
        have hne : m.nodeId ≠ m'.nodeId := by
          intro hcontra
          exact hhead (hcontra ▸ List.mem_map_of_mem (fun m => m.nodeId) hm')
        rw [if_neg hne]
        exact hfr m' (by simp [hm'])
      have := ih st1 st' h hnd' hfr'
      rw [this, hpl1, hrb1, expectedPlacements, List.reverse_cons, List.append_assoc]
      rfl

lemma expectedPlacements_coords (g : Graph) :
    ∀ (ms : List Mapping) (acc : Nat),
      (∀ m ∈ ms, 0 < seqLen g m.nodeId) →
      List.Chain' (· < ·) ((expectedPlacements g ms acc).map fun e => e.2.1) ∧
      ∀ e ∈ expectedPlacements g ms acc, acc ≤ e.2.1 := by
  intro ms
  induction ms with
  | nil => intro acc _; simp [expectedPlacements]
  | cons m rest ih =>
    intro acc hpos
    obtain ⟨ihc, ihm⟩ := ih (acc + seqLen g m.nodeId) fun m' hm' => hpos m' (by simp [hm'])
    rw [expectedPlacements]
    constructor
    · rw [List.map_cons]
      rw [List.chain'_cons']
      refine ⟨?_, ihc⟩
      intro b hb
      have hmem : b ∈ (expectedPlacements g rest (acc + seqLen g m.nodeId)).map
          fun e => e.2.1 := List.mem_of_mem_head? hb
      obtain ⟨e, he, hbe⟩ := List.mem_map.mp hmem
      have := ihm e he
      have hlen := hpos m (by simp)
      show acc < b
      omega
    · intro e he
      rcases List.mem_cons.mp he with rfl | he
      · simp
      · exact le_trans (Nat.le_add_right _ _) (ihm e he)

/-- C8: tracing a reference path whose nodes are each visited once and have
non-empty sequences assigns strictly ascending, non-overlapping placements
in traversal order (the placement list, newest first, reversed equals the
expected partial-sum placements); the coordinate counter always advances by
each node's sequence length and equals the total length, which also equals
the reference-sequence length; and a node visited more than once keeps the
placement of its first visit. -/
theorem reference_trace_properties (g : Graph) (ms : List Mapping) (st : TraceState)
    (htr : trace g ms = .ok st) :
    (st.referenceBase = totalLen g ms ∧ st.refSeq.length = totalLen g ms) ∧
    (∀ id, pLookup st.placement id = firstPlace g id ms 0) ∧
    ((ms.map fun m => m.nodeId).Nodup →
      st.placement.reverse = expectedPlacements g ms 0 ∧
      ((∀ m ∈ ms, 0 < seqLen g m.nodeId) →
        List.Chain' (· < ·) (st.placement.reverse.map fun e => e.2.1) ∧
        ∀ e1 ∈ st.placement, ∀ e2 ∈ st.placement, e1.2.1 ≠ e2.2.1 →
          e1.2.1 + seqLen g e1.1 ≤ e2.2.1 ∨ e2.2.1 + seqLen g e2.1 ≤ e1.2.1)) := by
  have hcnt := traceGo_counter g ms ⟨[], [], [], 0⟩ st htr
  have hsp := traceGo_spaced g ms ⟨[], [], [], 0⟩ st htr
    (by intro e he; simp at he) (by intro e1 he1; simp at he1)
  refine ⟨⟨by simpa using hcnt.1, by simpa using hcnt.2⟩,
    fun id => ?_, fun hnd => ⟨?_, fun hpos => ⟨?_, ?_⟩⟩⟩
  · exact traceGo_firstPlace g ms ⟨[], [], [], 0⟩ st id htr (by simp [pLookup])
  · have := traceGo_expected g ms ⟨[], [], [], 0⟩ st htr hnd
      (by intro m _; simp [pLookup])
    simp only [] at this
    rw [this]
    simp
  · have := traceGo_expected g ms ⟨[], [], [], 0⟩ st htr hnd
      (by intro m _; simp [pLookup])
    simp only [] at this
    rw [this]
    simp only [List.append_nil, List.reverse_reverse]
    exact (expectedPlacements_coords g ms 0 hpos).1
  · intro e1 he1 e2 he2 hne
    rcases Nat.lt_or_ge e1.2.1 e2.2.1 with hlt | hge
    · exact Or.inl (hsp.2 e1 he1 e2 he2 hlt)
    · exact Or.inr (hsp.2 e2 he2 e1 he1 (lt_of_le_of_ne hge (Ne.symm hne)))

/-- Witness for C8 on the fixture path: the counters agree, node 4 keeps its
first placement, and the reversed placement list is the expected one. -/
theorem reference_trace_properties_witness :
    (wState.referenceBase = totalLen wGraph wPath ∧
      wState.refSeq.length = totalLen wGraph wPath) ∧
    pLookup wState.placement 4 = firstPlace wGraph 4 wPath 0 ∧
    wState.placement.reverse = expectedPlacements wGraph wPath 0 :=
  ⟨(reference_trace_properties wGraph wPath wState rfl).1,
   (reference_trace_properties wGraph wPath wState rfl).2.1 4,
   ((reference_trace_properties wGraph wPath wState rfl).2.2 (by decide)).1⟩

lemma scanRef_done (nbr : List (Nat × Traversal)) (calls : CallTable)
    (pastEnd fuel refPos : Nat) (acc : Bool) (h : pastEnd ≤ refPos) :
    scanRef nbr calls pastEnd fuel refPos acc = .ok acc := by
  cases fuel with
  | zero => rw [scanRef, if_pos h]
  | succ f => rw [scanRef, if_pos h]

/-! ## Claim C2: inversion and duplication skips -/

/-- C2: a non-reference node anchored on both sides is skipped with a
diagnostic naming the node when reading in and reading out disagree in
reference direction, and likewise when (after orientation normalization)
the out anchor's coordinate is not strictly greater than the in anchor's
(equal or inverted coordinates); no variant is emitted in either case. -/
theorem bubble_skip_inversion_duplication
    (g : Graph) (pl : List (Int × Nat × Bool)) (nbr : List (Nat × Traversal))
    (refSeq : List Char) (calls : CallTable) (node : Node)
    (inT outT : Traversal) (pin pout : Nat) (pIn pOut : Nat × Bool)
    (h1 : pLookup pl node.id = none)
    (h2 : findLeftmost pl (g.prevOf node.id) = (some inT, pin))
    (h3 : findLeftmost pl (g.nextOf node.id) = (some outT, pout))
    (h4 : pLookup pl inT.node.id = some pIn)
    (h5 : pLookup pl outT.node.id = some pOut) :
    ((inT.backward == pIn.2) ≠ (outT.backward == pOut.2) →
      processNode g pl nbr refSeq calls node = .skipInverts node.id) ∧
    (∀ inT' outT' pIn' pOut' altBw,
      normalizeAnchors inT outT pIn pOut = some (inT', outT', pIn', pOut', altBw) →
      pOut'.1 ≤ pIn'.1 →
      processNode g pl nbr refSeq calls node = .skipDuplication node.id) := by
  constructor
  · intro hne
    have hnorm : normalizeAnchors inT outT pIn pOut = none := by
      rw [normalizeAnchors]
      rw [if_pos (by simpa [bne_iff_ne] using hne)]
    simp only [processNode, h1, h2, h3, h4, h5, hnorm]
  · intro inT' outT' pIn' pOut' altBw hnorm hle
    simp only [processNode, h1, h2, h3, h4, h5, hnorm]
    rw [if_pos hle]

/-- Fixture graph for the duplication skip: the bubble node 2 reads from
reference node 3 (coordinate 2) back into reference node 1 (coordinate 0). -/
def wGraphDup : Graph :=
  ⟨[wNode1, wNode2, wNode3, wNode4],
    fun i => if i = 2 then [⟨wNode3, false⟩] else [],
    fun i => if i = 2 then [⟨wNode1, false⟩] else []⟩

/-- Fixture graph for the inversion skip: the bubble node 2 leaves into
reference node 3 traversed backward. -/
def wGraphInv : Graph :=
  ⟨[wNode1, wNode2, wNode3, wNode4],
    fun i => if i = 2 then [⟨wNode1, false⟩] else [],
    fun i => if i = 2 then [⟨wNode3, true⟩] else []⟩

/-- Witness for C2: on the fixtures, the duplication case and the inversion
case each produce the named skip. -/
theorem bubble_skip_inversion_duplication_witness :
    processNode wGraphDup wState.placement wState.nodesByRef wState.refSeq
      [(2, [⟨true, []⟩])] wNode2 = .skipDuplication 2 ∧
    processNode wGraphInv wState.placement wState.nodesByRef wState.refSeq
      [(2, [⟨true, []⟩])] wNode2 = .skipInverts 2 :=
  ⟨(bubble_skip_inversion_duplication wGraphDup wState.placement wState.nodesByRef
      wState.refSeq [(2, [⟨true, []⟩])] wNode2 ⟨wNode3, false⟩ ⟨wNode1, false⟩
      2 0 (2, false) (0, false) rfl rfl rfl rfl rfl).2
    ⟨wNode3, false⟩ ⟨wNode1, false⟩ (2, false) (0, false) false rfl (by decide),
   (bubble_skip_inversion_duplication wGraphInv wState.placement wState.nodesByRef
      wState.refSeq [(2, [⟨true, []⟩])] wNode2 ⟨wNode1, false⟩ ⟨wNode3, true⟩
      0 2 (0, false) (2, false) rfl rfl rfl rfl rfl).1 (by decide)⟩

/-! ## Claim C3: pure-insertion left shift -/

/-- C3: when the replaced reference interval is empty, the emitted variant
is left-shifted by one base: the interval start is decremented, the
reference base at the new start is prepended to both alleles, and the
reported position is the new start converted to 1-based (which equals the
old start); when the shift is attempted at coordinate 0 (reachable only
with an empty reference string), the run dies on the
`assert(referenceIntervalStart != 0)` of main.cpp:588. -/
theorem insertion_left_shift
    (g : Graph) (pl : List (Int × Nat × Bool)) (nbr : List (Nat × Traversal))
    (refSeq : List Char) (calls : CallTable) (node : Node)
    (inT outT : Traversal) (pin pout : Nat) (pIn pOut : Nat × Bool)
    (inT' outT' : Traversal) (pIn' pOut' : Nat × Bool) (altBw : Bool)
    (h1 : pLookup pl node.id = none)
    (h2 : findLeftmost pl (g.prevOf node.id) = (some inT, pin))
    (h3 : findLeftmost pl (g.nextOf node.id) = (some outT, pout))
    (h4 : pLookup pl inT.node.id = some pIn)
    (h5 : pLookup pl outT.node.id = some pOut)
    (hnorm : normalizeAnchors inT outT pIn pOut = some (inT', outT', pIn', pOut', altBw))
    (hany : (ctGet calls node.id).any (fun c => c.graphBasePresent) = true)
    (hall : (ctGet calls node.id).all (fun c => c.graphBasePresent) = true) :
    (∀ b0 : Char,
      pOut'.1 = pIn'.1 + inT'.node.sequence.length →
      pIn'.1 < pOut'.1 →
      refSeq.get? (pIn'.1 + inT'.node.sequence.length - 1) = some b0 →
      processNode g pl nbr refSeq calls node =
        .emit ⟨pIn'.1 + inT'.node.sequence.length, [b0],
          [b0 :: (if altBw then reverseComplement node.sequence else node.sequence)],
          "1/1", 0⟩) ∧
    (∀ b2 : Bool,
      pIn'.1 + inT'.node.sequence.length = 0 →
      pIn'.1 < pOut'.1 →
      refSeq = [] →
      scanRef nbr calls pOut'.1 pOut'.1 0 false = .ok b2 →
      processNode g pl nbr refSeq calls node = .fatalAssert "insertion at reference start") := by
  constructor
  · intro b0 hsz hdup hb0
    have hstartpos : 0 < pIn'.1 + inT'.node.sequence.length := by omega
    simp only [processNode, h1, h2, h3, h4, h5, hnorm]
    rw [if_neg (Nat.not_le.mpr hdup)]
    rw [if_neg (by omega)]
    rw [if_neg (by simp [hany]), if_neg (by simp [hall])]
    have hscan : scanRef nbr calls pOut'.1
        (pOut'.1 - (pIn'.1 + inT'.node.sequence.length))
        (pIn'.1 + inT'.node.sequence.length) false = .ok false :=
      scanRef_done _ _ _ _ _ _ (by omega)
    rw [hscan]
    simp only []
    have hre : ((refSeq.drop (pIn'.1 + inT'.node.sequence.length)).take
        (pOut'.1 - (pIn'.1 + inT'.node.sequence.length))).length = 0 := by
      rw [hsz]
      simp
    rw [if_pos hre]
    rw [if_neg (by omega)]
    have hgetD : refSeq.getD (pIn'.1 + inT'.node.sequence.length - 1) '?' = b0 := by
      rw [List.getD_eq_getElem?_getD, ← List.get?_eq_getElem?, hb0]
      rfl
    rw [hgetD]
    have hpos1 : pIn'.1 + inT'.node.sequence.length - 1 + 1 =
        pIn'.1 + inT'.node.sequence.length := by omega
    rw [hpos1]
    rfl
  · intro b2 hz hdup hrs hscan2
    simp only [processNode, h1, h2, h3, h4, h5, hnorm]
    rw [if_neg (Nat.not_le.mpr hdup)]
    rw [if_neg (by omega)]
    rw [if_neg (by simp [hany]), if_neg (by simp [hall])]
    have hscan : scanRef nbr calls pOut'.1
        (pOut'.1 - (pIn'.1 + inT'.node.sequence.length))
        (pIn'.1 + inT'.node.sequence.length) false = .ok b2 := by
      rw [hz, Nat.sub_zero]
      exact hscan2
    rw [hscan]
    simp only []
    have hre : ((refSeq.drop (pIn'.1 + inT'.node.sequence.length)).take
        (pOut'.1 - (pIn'.1 + inT'.node.sequence.length))).length = 0 := by
      simp [hrs]
    rw [if_pos hre, if_pos hz]

/-- Fixture graph for the insertion case: bubble node 2 sits directly
between reference nodes 1 and 4 (an empty replaced interval at
coordinate 1). -/
def wGraphIns : Graph :=
  ⟨[wNode1, wNode2, wNode3, wNode4],
    fun i => if i = 2 then [⟨wNode1, false⟩] else [],
    fun i => if i = 2 then [⟨wNode4, false⟩] else []⟩

/-- Fixture node with empty sequence placed at coordinate 0 (used to reach
the insertion-at-0 assert together with an empty reference string). -/
def wNodeE : Node := ⟨10, []⟩

/-- Fixture reference node of length 1 placed at coordinate 1. -/
def wNodeF : Node := ⟨11, ['A']⟩

/-- Fixture bubble node for the insertion-at-0 assert. -/
def wNode12 : Node := ⟨12, ['T']⟩

/-- Fixture graph for the insertion-at-0 assert. -/
def wGraphZ : Graph :=
  ⟨[wNodeE, wNodeF, wNode12],
    fun i => if i = 12 then [⟨wNodeE, false⟩] else [],
    fun i => if i = 12 then [⟨wNodeF, false⟩] else []⟩

/-- Fixture placement for the insertion-at-0 assert. -/
def wPl2 : List (Int × Nat × Bool) := [(10, 0, false), (11, 1, false)]

/-- Fixture coordinate index for the insertion-at-0 assert. -/
def wNbr2 : List (Nat × Traversal) := [(0, ⟨wNodeF, false⟩)]

/-- Fixture call table for the insertion-at-0 assert. -/
def wCalls2 : CallTable := [(12, [⟨true, []⟩]), (11, [⟨false, []⟩])]

/-- Witness for C3: the concrete pure insertion between coordinates 1 and 1
is reported at 1-based position 1 with the anchoring base prepended to both
alleles, and the insertion-at-coordinate-0 configuration dies on the
assert. -/
theorem insertion_left_shift_witness :
    processNode wGraphIns wState.placement wState.nodesByRef wState.refSeq
      [(2, [⟨true, []⟩]), (4, [⟨false, []⟩])] wNode2 =
      .emit ⟨1, ['A'], [['A', 'T']], "1/1", 0⟩ ∧
    processNode wGraphZ wPl2 wNbr2 [] wCalls2 wNode12 =
      .fatalAssert "insertion at reference start" :=
  ⟨(insertion_left_shift wGraphIns wState.placement wState.nodesByRef wState.refSeq
      [(2, [⟨true, []⟩]), (4, [⟨false, []⟩])] wNode2
      ⟨wNode1, false⟩ ⟨wNode4, false⟩ 0 1 (0, false) (1, false)
      ⟨wNode1, false⟩ ⟨wNode4, false⟩ (0, false) (1, false) false
      rfl rfl rfl rfl rfl rfl rfl rfl).1 'A' rfl (by decide) rfl,
   (insertion_left_shift wGraphZ wPl2 wNbr2 [] wCalls2 wNode12
      ⟨wNodeE, false⟩ ⟨wNodeF, false⟩ 0 1 (0, false) (1, false)
      ⟨wNodeE, false⟩ ⟨wNodeF, false⟩ (0, false) (1, false) false
      rfl rfl rfl rfl rfl rfl rfl rfl).2 false rfl (by decide) rfl rfl⟩

/-! ## Claim C1: structural variant emission and zygosity -/

/-- C1: a non-reference node that passes the anchoring, orientation and
duplication checks, whose bases are all called present, and whose zygosity
scan succeeds, yields exactly one variant, with a single alt allele; the
genotype is "1/0" when the scan found a base of the replaced reference
interval present or carrying an alt and "1/1" otherwise; a zero-length
interval always yields "1/1"; and for a non-empty interval the alt allele
is the node's own sequence, reverse-complemented exactly when the node's
normalized orientation is reverse. -/
theorem bubble_variant_emission
    (g : Graph) (pl : List (Int × Nat × Bool)) (nbr : List (Nat × Traversal))
    (refSeq : List Char) (calls : CallTable) (node : Node)
    (inT outT : Traversal) (pin pout : Nat) (pIn pOut : Nat × Bool)
    (inT' outT' : Traversal) (pIn' pOut' : Nat × Bool) (altBw : Bool) (b : Bool)
    (h1 : pLookup pl node.id = none)
    (h2 : findLeftmost pl (g.prevOf node.id) = (some inT, pin))
    (h3 : findLeftmost pl (g.nextOf node.id) = (some outT, pout))
    (h4 : pLookup pl inT.node.id = some pIn)
    (h5 : pLookup pl outT.node.id = some pOut)
    (hnorm : normalizeAnchors inT outT pIn pOut = some (inT', outT', pIn', pOut', altBw))
    (hdup : pIn'.1 < pOut'.1)
    (hassert : pIn'.1 + inT'.node.sequence.length ≤ pOut'.1)
    (h0 : 0 < pIn'.1 + inT'.node.sequence.length)
    (hlen : pOut'.1 ≤ refSeq.length)
    (hany : (ctGet calls node.id).any (fun c => c.graphBasePresent) = true)
    (hall : (ctGet calls node.id).all (fun c => c.graphBasePresent) = true)
    (hscan : scanRef nbr calls pOut'.1
      (pOut'.1 - (pIn'.1 + inT'.node.sequence.length))
      (pIn'.1 + inT'.node.sequence.length) false = .ok b) :
    ∃ v, processNode g pl nbr refSeq calls node = .emit v ∧
      v.altAlleles.length = 1 ∧
      v.genotype = (if b then "1/0" else "1/1") ∧
      (pOut'.1 = pIn'.1 + inT'.node.sequence.length → v.genotype = "1/1") ∧
      (pIn'.1 + inT'.node.sequence.length < pOut'.1 →
        v.altAlleles =
          [if altBw then reverseComplement node.sequence else node.sequence]) := by
  have hbody : processNode g pl nbr refSeq calls node =
      (let start := pIn'.1 + inT'.node.sequence.length
       let sz := pOut'.1 - start
       let gt := if b then "1/0" else "1/1"
       let refAllele := (refSeq.drop start).take sz
       let altAllele := if altBw then reverseComplement node.sequence else node.sequence
       if refAllele.length = 0 then
         if start = 0 then .fatalAssert "insertion at reference start"
         else
           let b0 := refSeq.getD (start - 1) '?'
           .emit ⟨start - 1 + 1, [b0], [b0 :: altAllele], gt, 0⟩
       else .emit ⟨start + 1, refAllele, [altAllele], gt, 0⟩) := by
    simp only [processNode, h1, h2, h3, h4, h5, hnorm]
    rw [if_neg (Nat.not_le.mpr hdup)]
    rw [if_neg (Nat.not_lt.mpr hassert)]
    rw [if_neg (by simp [hany]), if_neg (by simp [hall])]
    rw [hscan]
  rcases Nat.lt_or_ge pIn'.1 (pOut'.1 - inT'.node.sequence.length) with hpos | hpos
  case inl =>
    -- non-empty replaced interval
    have hszpos : 0 < pOut'.1 - (pIn'.1 + inT'.node.sequence.length) := by omega
    have hre : ((refSeq.drop (pIn'.1 + inT'.node.sequence.length)).take
        (pOut'.1 - (pIn'.1 + inT'.node.sequence.length))).length =
        pOut'.1 - (pIn'.1 + inT'.node.sequence.length) := by
      rw [List.length_take, List.length_drop]
      omega
    rw [hbody]
    simp only []
    rw [if_neg (by omega)]
    refine ⟨_, rfl, by simp, rfl, fun hc => by omega, fun _ => rfl⟩
  case inr =>
    -- empty replaced interval: the scan never runs, so b is false
    have hsz0 : pOut'.1 = pIn'.1 + inT'.node.sequence.length := by omega
    have hb : b = false := by
      rw [hsz0] at hscan
      rw [scanRef_done nbr calls _ _ _ false (by omega)] at hscan
      exact (Option.some_inj.mp (by simpa using hscan)).symm
    have hre : ((refSeq.drop (pIn'.1 + inT'.node.sequence.length)).take
        (pOut'.1 - (pIn'.1 + inT'.node.sequence.length))).length = 0 := by
      rw [hsz0]
      simp
    rw [hbody]
    simp only []
    rw [if_pos hre]
    rw [if_neg (by omega)]
    exact ⟨_, rfl, by simp, by simp [hb], fun _ => by simp [hb],
      fun hc => absurd hc (by omega)⟩

/-- Witness for C1 on the fixture bubble: with the replaced reference base
never observed, the variant is homozygous "1/1"; with the replaced
reference base observed present, it is heterozygous "1/0"; in both cases
exactly one alt allele equal to the node's own sequence is emitted. -/
theorem bubble_variant_emission_witness :
    (∃ v, processNode wGraph wState.placement wState.nodesByRef wState.refSeq
        [(2, [⟨true, []⟩]), (4, [⟨false, []⟩])] wNode2 = .emit v ∧
      v.altAlleles.length = 1 ∧
      v.genotype = (if false then "1/0" else "1/1") ∧
      ((2 : Nat) = 0 + wNode1.sequence.length → v.genotype = "1/1") ∧
      (0 + wNode1.sequence.length < 2 →
        v.altAlleles =
          [if false then reverseComplement wNode2.sequence else wNode2.sequence])) ∧
    (∃ v, processNode wGraph wState.placement wState.nodesByRef wState.refSeq
        [(2, [⟨true, []⟩]), (4, [⟨true, []⟩])] wNode2 = .emit v ∧
      v.altAlleles.length = 1 ∧
      v.genotype = (if true then "1/0" else "1/1") ∧
      ((2 : Nat) = 0 + wNode1.sequence.length → v.genotype = "1/1") ∧
      (0 + wNode1.sequence.length < 2 →
        v.altAlleles =
          [if false then reverseComplement wNode2.sequence else wNode2.sequence])) :=
  ⟨bubble_variant_emission wGraph wState.placement wState.nodesByRef wState.refSeq
      [(2, [⟨true, []⟩]), (4, [⟨false, []⟩])] wNode2
      ⟨wNode1, false⟩ ⟨wNode3, false⟩ 0 2 (0, false) (2, false)
      ⟨wNode1, false⟩ ⟨wNode3, false⟩ (0, false) (2, false) false false
      rfl rfl rfl rfl rfl rfl (by decide) (by decide) (by decide) (by decide)
      rfl rfl rfl,
   bubble_variant_emission wGraph wState.placement wState.nodesByRef wState.refSeq
      [(2, [⟨true, []⟩]), (4, [⟨true, []⟩])] wNode2
      ⟨wNode1, false⟩ ⟨wNode3, false⟩ 0 2 (0, false) (2, false)
      ⟨wNode1, false⟩ ⟨wNode3, false⟩ (0, false) (2, false) false true
      rfl rfl rfl rfl rfl rfl (by decide) (by decide) (by decide) (by decide)
      rfl rfl rfl⟩

/-! ## Claim C4: reference-SNP coordinates and allele orientation -/

lemma snpGT_of_bounded {call : BaseCall} (hle : call.alts.length ≤ 2)
    (hne : call.alts.length ≠ 0) : ∃ gt, snpGT call = some gt := by
  rw [snpGT]
  by_cases hp : call.graphBasePresent
  · rw [if_pos hp]
    exact ⟨_, rfl⟩
  · rw [if_neg hp]
    interval_cases h : call.alts.length
    · exact absurd rfl hne
    · exact ⟨"1/1", by simp⟩
    · exact ⟨"1/2", by simp⟩

lemma snpGo_ok (pr : Nat × Bool) (refSeq : List Char) (node : Node)
    (cv : List BaseCall) :
    ∀ idxs : List Nat,
      (∀ j ∈ idxs, ∃ c, cv.get? j = some c ∧ c.alts.length ≤ 2) →
      ∃ vs, snpGo pr refSeq node cv idxs = .ok vs ∧
        ∀ i ∈ idxs, ∀ call gt, cv.get? i = some call → call.alts.length ≠ 0 →
          snpGT call = some gt → snpVariant pr refSeq node i call gt ∈ vs := by
  intro idxs
  induction idxs with
  | nil =>
    intro _
    exact ⟨[], rfl, by simp⟩
  | cons i rest ih =>
    intro hall
    obtain ⟨c, hc, hle⟩ := hall i (by simp)
    obtain ⟨vs, hvs, hmem⟩ := ih fun j hj => hall j (by simp [hj])
    rw [snpGo, hc]
    simp only []
    by_cases hz : c.alts.length = 0
    · rw [if_pos hz, hvs]
      refine ⟨vs, rfl, ?_⟩
      intro j hj call gt hcall hne hgt
      rcases List.mem_cons.mp hj with rfl | hj
      · rw [hc] at hcall
        rw [← Option.some_inj.mp hcall] at hne
        exact absurd hz hne
      · exact hmem j hj call gt hcall hne hgt
    · rw [if_neg hz]
      obtain ⟨gt0, hgt0⟩ := snpGT_of_bounded hle hz
      rw [hgt0, hvs]
      refine ⟨snpVariant pr refSeq node i c gt0 :: vs, rfl, ?_⟩
      intro j hj call gt hcall hne hgt
      rcases List.mem_cons.mp hj with rfl | hj
      · rw [hc] at hcall
        obtain rfl : c = call := Option.some_inj.mp hcall
        rw [hgt0] at hgt
        obtain rfl : gt0 = gt := Option.some_inj.mp hgt
        exact List.mem_cons_self _ _
      · exact List.mem_cons_of_mem _ (hmem j hj call gt hcall hne hgt)

/-- C4: for a reference node and a base offset carrying at least one alt,
the SNP pass emits a variant at 1-based position `coordinate + (length - i
- 1) + 1` when the node is reverse in the reference and `coordinate + i +
1` otherwise; the reference allele is the single reference base at that
coordinate, and each alt base is complemented exactly when the node is
reverse. -/
theorem ref_snp_position_and_orientation
    (pl : List (Int × Nat × Bool)) (refSeq : List Char) (calls : CallTable)
    (node : Node) (coord : Nat) (rev : Bool) (i : Nat) (call : BaseCall) (rb : Char)
    (hpl : pLookup pl node.id = some (coord, rev))
    (hcov : node.sequence.length ≤ (ctGet calls node.id).length)
    (hwf : ∀ c ∈ ctGet calls node.id, c.alts.length ≤ 2)
    (hi : i < node.sequence.length)
    (hcall : (ctGet calls node.id).get? i = some call)
    (halt : call.alts.length ≠ 0)
    (hrb : refSeq.get? (coord + (if rev then node.sequence.length - i - 1 else i)) =
      some rb) :
    ∃ vs gt, snpForNode pl refSeq calls node = .ok vs ∧ snpGT call = some gt ∧
      (⟨coord + (if rev then node.sequence.length - i - 1 else i) + 1, [rb],
        call.alts.map (fun a => if rev then [complement a] else [a]), gt, 0⟩ :
          Variant) ∈ vs := by
  have hwfc : call.alts.length ≤ 2 := hwf call (List.get?_mem hcall)
  obtain ⟨gt, hgt⟩ := snpGT_of_bounded hwfc halt
  obtain ⟨vs, hvs, hmem⟩ := snpGo_ok (coord, rev) refSeq node (ctGet calls node.id)
    (List.range node.sequence.length)
    (by
      intro j hj
      have hjlen : j < (ctGet calls node.id).length :=
        lt_of_lt_of_le (List.mem_range.mp hj) hcov
      exact ⟨_, List.get?_eq_get hjlen, hwf _ (List.get_mem _ _ _)⟩)
  refine ⟨vs, gt, ?_, hgt, ?_⟩
  · rw [snpForNode, hpl]
    exact hvs
  · have := hmem i (List.mem_range.mpr hi) call gt hcall halt hgt
    have hv : snpVariant (coord, rev) refSeq node i call gt =
        ⟨coord + (if rev then node.sequence.length - i - 1 else i) + 1, [rb],
          call.alts.map (fun a => if rev then [complement a] else [a]), gt, 0⟩ := by
      rw [snpVariant]
      have hgetD : refSeq.getD
          (coord + (if rev then node.sequence.length - i - 1 else i)) '?' = rb := by
        rw [List.getD_eq_getElem?_getD, ← List.get?_eq_getElem?, hrb]
        rfl
      simp only [hgetD]
    rw [← hv]
    exact this

/-- Witness for C4: node 4 placed reverse at coordinate 1 over reference
"ACG", with two alts at offset 0, yields the variant at 1-based position 2
with complemented alts. -/
theorem ref_snp_position_and_orientation_witness :
    ∃ vs gt, snpForNode [(4, 1, true)] ['A', 'C', 'G']
        [(4, [⟨false, ['A', 'T']⟩])] wNode4 = .ok vs ∧
      snpGT ⟨false, ['A', 'T']⟩ = some gt ∧
      (⟨1 + (if true then wNode4.sequence.length - 0 - 1 else 0) + 1, ['C'],
        ['A', 'T'].map (fun a => if true then [complement a] else [a]), gt, 0⟩ :
          Variant) ∈ vs :=
  ref_snp_position_and_orientation [(4, 1, true)] ['A', 'C', 'G']
    [(4, [⟨false, ['A', 'T']⟩])] wNode4 1 true 0 ⟨false, ['A', 'T']⟩ 'C'
    rfl (by decide) (by decide) (by decide) rfl (by decide) rfl

/-! ## Claim C5: alt allele order for two-alt reference-SNP calls -/

/-- C5 counterexample: the call string "T,A" parses (in call order) to the
tokens ["T", "A"], but the constructed call stores the alts in the sorted
order of the `std::set`, so the emitted variant's two alt alleles are
["A"], ["T"] — not the call order ["T"], ["A"]. -/
theorem snp_alt_order_counterexample :
    splitCommas "T,A" = ["T", "A"] ∧
    processGlennLine "1 1 C T,A" ([] : CallTable) =
      .ok [(1, [⟨false, ['A', 'T']⟩])] ∧
    snpForNode [(1, 0, false)] ['C'] [(1, [⟨false, ['A', 'T']⟩])] ⟨1, ['C']⟩ =
      .ok [⟨1, ['C'], [['A'], ['T']], "1/2", 0⟩] ∧
    ([['A'], ['T']] : List (List Char)) ≠ [['T'], ['A']] :=
  ⟨rfl, rfl, rfl, by decide⟩

lemma charToNat_inj {a b : Char} (h : a.toNat = b.toNat) : a = b :=
  Char.eq_of_val_eq (UInt32.ext h)

lemma lexLt_trans : ∀ a b c : List Char,
    lexLt a b = true → lexLt b c = true → lexLt a c = true := by
  intro a
  induction a with
  | nil =>
    intro b c h1 h2
    cases b with
    | nil => simp [lexLt] at h1
    | cons b0 bs =>
      cases c with
      | nil => simp [lexLt] at h2
      | cons c0 cs => simp [lexLt]
  | cons a0 as ih =>
    intro b c h1 h2
    cases b with
    | nil => simp [lexLt] at h1
    | cons b0 bs =>
      cases c with
      | nil => simp [lexLt] at h2
      | cons c0 cs =>
        simp only [lexLt, Bool.or_eq_true, Bool.and_eq_true, decide_eq_true_eq] at h1 h2 ⊢
        rcases h1 with h1 | ⟨he1, h1r⟩
        · rcases h2 with h2 | ⟨he2, h2r⟩
          · exact Or.inl (Nat.lt_trans h1 h2)
          · rw [he2] at h1
            exact Or.inl h1
        · rcases h2 with h2 | ⟨he2, h2r⟩
          · rw [← he1] at h2
            exact Or.inl h2
          · exact Or.inr ⟨he1.trans he2, ih bs cs h1r h2r⟩

lemma lexLt_of_ne : ∀ a b : List Char,
    a ≠ b → lexLt a b = true ∨ lexLt b a = true := by
  intro a
  induction a with
  | nil =>
    intro b hne
    cases b with
    | nil => exact absurd rfl hne
    | cons b0 bs => exact Or.inl (by simp [lexLt])
  | cons a0 as ih =>
    intro b hne
    cases b with
    | nil => exact Or.inr (by simp [lexLt])
    | cons b0 bs =>
      rcases Nat.lt_trichotomy a0.toNat b0.toNat with hlt | heq | hgt
      · exact Or.inl (by simp [lexLt, hlt])
      · have ha0 : a0 = b0 := charToNat_inj heq
        subst ha0
        have hne' : as ≠ bs := fun hc => hne (by rw [hc])
        rcases ih bs hne' with h | h
        · exact Or.inl (by simp [lexLt, h])
        · exact Or.inr (by simp [lexLt, h])
      · exact Or.inr (by simp [lexLt, hgt])

lemma strLt_of_ne {a b : String} (hne : a ≠ b) (hnot : strLt a b = false) :
    strLt b a = true := by
  have hl : a.toList ≠ b.toList := fun hc => hne (String.ext hc)
  rcases lexLt_of_ne a.toList b.toList hl with h | h
  · rw [strLt] at hnot
    rw [h] at hnot
    exact absurd hnot (by simp)
  · exact h

lemma insertTok_mem : ∀ (l : List String) (t x : String),
    x ∈ insertTok t l → x = t ∨ x ∈ l := by
  intro l
  induction l with
  | nil => intro t x h; simpa [insertTok] using h
  | cons s rest ih =>
    intro t x h
    rw [insertTok] at h
    by_cases h1 : strLt t s
    · rw [if_pos h1] at h
      rcases List.mem_cons.mp h with rfl | h
      · exact Or.inl rfl
      · exact Or.inr h
    · rw [if_neg h1] at h
      by_cases h2 : t = s
      · rw [if_pos h2] at h
        exact Or.inr h
      · rw [if_neg h2] at h
        rcases List.mem_cons.mp h with rfl | h
        · exact Or.inr (by simp)
        · rcases ih t x h with hx | hx
          · exact Or.inl hx
          · exact Or.inr (by simp [hx])

lemma insertTok_pairwise : ∀ (l : List String) (t : String),
    l.Pairwise (fun a b => strLt a b = true) →
    (insertTok t l).Pairwise (fun a b => strLt a b = true) := by
  intro l
  induction l with
  | nil => intro t _; simp [insertTok]
  | cons s rest ih =>
    intro t hp
    rw [insertTok]
    obtain ⟨hhead, htail⟩ := List.pairwise_cons.mp hp
    by_cases h1 : strLt t s
    · rw [if_pos h1]
      refine List.pairwise_cons.mpr ⟨?_, hp⟩
      intro x hx
      rcases List.mem_cons.mp hx with rfl | hx
      · exact h1
      · exact lexLt_trans _ _ _ h1 (hhead x hx)
    · rw [if_neg h1]
      by_cases h2 : t = s
      · rw [if_pos h2]
        exact hp
      · rw [if_neg h2]
        refine List.pairwise_cons.mpr ⟨?_, ih t htail⟩
        intro x hx
        rcases insertTok_mem rest t x hx with rfl | hx
        · exact strLt_of_ne h2 (by simpa using h1)
        · exact hhead x hx

lemma toTokenSet_pairwise (l : List String) :
    (toTokenSet l).Pairwise (fun a b => strLt a b = true) := by
  rw [toTokenSet]
  suffices h : ∀ acc : List String,
      acc.Pairwise (fun a b => strLt a b = true) →
      (l.foldl (fun acc t => insertTok t acc) acc).Pairwise
        (fun a b => strLt a b = true) by
    exact h [] (by simp)
  induction l with
  | nil => intro acc hacc; simpa using hacc
  | cons t rest ih =>
    intro acc hacc
    simp only [List.foldl_cons]
    exact ih (insertTok t acc) (insertTok_pairwise acc t hacc)

lemma mkBaseCallGo_alts : ∀ (l : List String) (p : Bool) (a : List Char)
    (r : Bool × List Char),
    mkBaseCallGo l p a = .ok r → r.2 = a ++ altChars l := by
  intro l
  induction l with
  | nil =>
    intro p a r h
    rw [mkBaseCallGo] at h
    obtain rfl : (p, a) = r := by simpa using h
    simp [altChars]
  | cons t rest ih =>
    intro p a r h
    rw [mkBaseCallGo] at h
    by_cases hdash : t = "-"
    · rw [if_pos hdash] at h
      have hac : altChars (t :: rest) = altChars rest := by
        simp [altChars, altChar, hdash]
      rw [hac]
      exact ih p a r h
    · rw [if_neg hdash] at h
      by_cases hdot : t = "."
      · rw [if_pos hdot] at h
        have hac : altChars (t :: rest) = altChars rest := by
          simp [altChars, altChar, hdot]
        rw [hac]
        exact ih true a r h
      · rw [if_neg hdot] at h
        by_cases hone : t.length = 1
        · rw [if_pos hone] at h
          by_cases hlt : a.length < 2
          · rw [if_pos hlt] at h
            have hac : altChars (t :: rest) = t.toList.headD ' ' :: altChars rest := by
              simp [altChars, List.filterMap_cons, altChar, hdash, hdot, hone]
            rw [hac, ih p (a ++ [t.toList.headD ' ']) r h]
            simp
          · rw [if_neg hlt] at h
            exact absurd h (by simp)
        · rw [if_neg hone] at h
          exact absurd h (by simp)

lemma altChar_some {t : String} {c : Char} (h : altChar t = some c) :
    t.toList = [c] := by
  rw [altChar] at h
  by_cases hdash : t = "-"
  · rw [if_pos hdash] at h
    exact absurd h (by simp)
  · rw [if_neg hdash] at h
    by_cases hdot : t = "."
    · rw [if_pos hdot] at h
      exact absurd h (by simp)
    · rw [if_neg hdot] at h
      by_cases hone : t.length = 1
      · rw [if_pos hone] at h
        have hc : c = t.toList.headD ' ' := (Option.some_inj.mp h).symm
        have hlen : t.toList.length = 1 := hone
        obtain ⟨c0, hc0⟩ := List.length_eq_one.mp hlen
        rw [hc0] at hc ⊢
        rw [hc]
        rfl
      · rw [if_neg hone] at h
        exact absurd h (by simp)

lemma altChars_sorted (l : List String)
    (hp : l.Pairwise (fun a b => strLt a b = true)) :
    (altChars l).Pairwise (fun a b => a.toNat < b.toNat) := by
  rw [altChars]
  refine List.Pairwise.filterMap altChar ?_ hp
  intro a a' hlt b hb b' hb'
  have ha : a.toList = [b] := altChar_some hb
  have ha' : a'.toList = [b'] := altChar_some hb'
  rw [strLt, ha, ha'] at hlt
  simpa [lexLt] using hlt

/-- C5 amended: for a reference-node base whose call, parsed from a call
string, records two alt bases with the graph base absent, the emitted
variant has genotype "1/2" and its two alt alleles appear in ascending
character order — the sorted iteration order of the `std::set` of call
tokens — which coincides with call order only when the call string already
lists the alts in sorted order. -/
theorem snp_alt_order_sorted
    (s : String) (pl : List (Int × Nat × Bool)) (refSeq : List Char)
    (calls : CallTable) (node : Node) (coord : Nat) (i : Nat)
    (call : BaseCall) (a b rb : Char)
    (hparse : mkBaseCall (toTokenSet (splitCommas s)) = .ok call)
    (hnp : call.graphBasePresent = false)
    (h2 : call.alts = [a, b])
    (hpl : pLookup pl node.id = some (coord, false))
    (hcov : node.sequence.length ≤ (ctGet calls node.id).length)
    (hwf : ∀ c ∈ ctGet calls node.id, c.alts.length ≤ 2)
    (hi : i < node.sequence.length)
    (hcall : (ctGet calls node.id).get? i = some call)
    (hrb : refSeq.get? (coord + i) = some rb) :
    a.toNat < b.toNat ∧
    ∃ vs, snpForNode pl refSeq calls node = .ok vs ∧
      (⟨coord + i + 1, [rb], [[a], [b]], "1/2", 0⟩ : Variant) ∈ vs := by
  have hgt : snpGT call = some "1/2" := by
    rw [snpGT, if_neg (by simp [hnp]), h2]
    simp
  constructor
  · -- sortedness of the two alts
    have halts : call.alts = altChars (toTokenSet (splitCommas s)) := by
      rw [mkBaseCall] at hparse
      cases hgo : mkBaseCallGo (toTokenSet (splitCommas s)) false [] with
      | error e => rw [hgo] at hparse; exact absurd hparse (by simp [Except.map])
      | ok r =>
        rw [hgo] at hparse
        have hcr : call = ⟨r.1, r.2⟩ := by
          simpa [Except.map] using hparse.symm
        rw [hcr]
        simpa using mkBaseCallGo_alts _ false [] r hgo
    have hsorted := altChars_sorted (toTokenSet (splitCommas s))
      (toTokenSet_pairwise (splitCommas s))
    rw [← halts, h2] at hsorted
    exact (List.pairwise_cons.mp hsorted).1 b (by simp)
  · obtain ⟨vs, hvs, hmem⟩ := snpGo_ok (coord, false) refSeq node (ctGet calls node.id)
      (List.range node.sequence.length)
      (by
        intro j hj
        have hjlen : j < (ctGet calls node.id).length :=
          lt_of_lt_of_le (List.mem_range.mp hj) hcov
        exact ⟨_, List.get?_eq_get hjlen, hwf _ (List.get_mem _ _ _)⟩)
    refine ⟨vs, ?_, ?_⟩
    · rw [snpForNode, hpl]
      exact hvs
    · have hv : snpVariant (coord, false) refSeq node i call "1/2" =
          ⟨coord + i + 1, [rb], [[a], [b]], "1/2", 0⟩ := by
        rw [snpVariant]
        have hgetD : refSeq[coord + i]?.getD '?' = rb := by
          rw [← List.get?_eq_getElem?, hrb]
          rfl
        simp [h2, List.getD_eq_getElem?_getD, hgetD]
      rw [← hv]
      exact hmem i (List.mem_range.mpr hi) call "1/2" hcall (by simp [h2]) hgt

/-- Witness for C5 (amended) at the counterexample input: call string "T,A"
on a forward reference node yields genotype "1/2" with alts in ascending
order A before T. -/
theorem snp_alt_order_sorted_witness :
    ('A').toNat < ('T').toNat ∧
    ∃ vs, snpForNode [(1, 0, false)] ['C'] [(1, [⟨false, ['A', 'T']⟩])] ⟨1, ['C']⟩ =
        .ok vs ∧
      (⟨0 + 0 + 1, ['C'], [['A'], ['T']], "1/2", 0⟩ : Variant) ∈ vs :=
  snp_alt_order_sorted "T,A" [(1, 0, false)] ['C'] [(1, [⟨false, ['A', 'T']⟩])]
    ⟨1, ['C']⟩ 0 0 ⟨false, ['A', 'T']⟩ 'A' 'T' 'C'
    rfl rfl rfl rfl (by decide) (by decide) (by decide) rfl rfl

/-! ## Claim C6: malformed Glenn-file lines -/

lemma stringMk_toList (l : List Char) : (String.mk l).toList = l := rfl

/-- C6 counterexample: the non-blank line "1 2 AB" has only three
whitespace-separated tokens (the call string is missing), yet the parsing
loop accepts it without any fatal error: the single-character extraction
for the graph base consumes only 'A', and the leftover "B" is taken as the
call string, producing a call table entry. -/
theorem glenn_malformed_line_accepted :
    "1 2 AB" ≠ "" ∧
    (wsTokens "1 2 AB").length = 3 ∧
    processGlennLine "1 2 AB" ([] : CallTable) =
      .ok [(1, [⟨false, []⟩, ⟨false, ['B']⟩])] :=
  ⟨by decide, rfl, rfl⟩

lemma digit_not_ws {c : Char} (h : c.isDigit = true) : isWS c = false := by
  cases hiw : isWS c
  · rfl
  · rw [isWS] at hiw
    simp only [Bool.or_eq_true, decide_eq_true_eq] at hiw
    rcases hiw with ((h1 | h1) | h1) | h1 <;> subst h1 <;> exact absurd h (by decide)

lemma takeWhile_append_all (p : Char → Bool) :
    ∀ (t r : List Char), (∀ c ∈ t, p c = true) →
      (t ++ r).takeWhile p = t ++ r.takeWhile p := by
  intro t
  induction t with
  | nil => intro r _; simp
  | cons d ds ih =>
    intro r ha
    rw [List.cons_append, List.takeWhile_cons, if_pos (ha d (by simp)),
      ih r fun c hc => ha c (by simp [hc])]
    simp

lemma dropWhile_append_all (p : Char → Bool) :
    ∀ (t r : List Char), (∀ c ∈ t, p c = true) →
      (t ++ r).dropWhile p = r.dropWhile p := by
  intro t
  induction t with
  | nil => intro r _; simp
  | cons d ds ih =>
    intro r ha
    rw [List.cons_append, List.dropWhile_cons, if_pos (ha d (by simp))]
    exact ih r fun c hc => ha c (by simp [hc])

lemma takeWhile_digit_ws {r : List Char}
    (hr : r.head? = none ∨ r.head? = some ' ') :
    r.takeWhile Char.isDigit = [] := by
  cases r with
  | nil => rfl
  | cons c cs =>
    have hc : c = ' ' := by
      rcases hr with h | h
      · exact absurd h (by simp)
      · simpa using h
    subst hc
    simp [List.takeWhile_cons]

lemma dropWhile_digit_ws {r : List Char}
    (hr : r.head? = none ∨ r.head? = some ' ') :
    r.dropWhile Char.isDigit = r := by
  cases r with
  | nil => rfl
  | cons c cs =>
    have hc : c = ' ' := by
      rcases hr with h | h
      · exact absurd h (by simp)
      · simpa using h
    subst hc
    simp [List.dropWhile_cons]

lemma readNatRaw_digits (t r : List Char) (ht : t ≠ [])
    (htd : ∀ c ∈ t, Char.isDigit c = true)
    (hr : r.head? = none ∨ r.head? = some ' ') :
    readNatRaw (t ++ r) = some (digitsVal (t ++ r.takeWhile Char.isDigit), r) := by
  rw [readNatRaw]
  simp only [takeWhile_append_all Char.isDigit t r htd,
    dropWhile_append_all Char.isDigit t r htd, takeWhile_digit_ws hr,
    dropWhile_digit_ws hr, List.append_nil]
  rw [if_neg (by simp [ht])]

lemma dropWS_digits (t r : List Char) (ht : t ≠ [])
    (htd : ∀ c ∈ t, Char.isDigit c = true) :
    (t ++ r).dropWhile isWS = t ++ r := by
  cases t with
  | nil => exact absurd rfl ht
  | cons d ds =>
    simp only [List.cons_append, List.dropWhile_cons,
      digit_not_ws (htd d (by simp))]
    simp

lemma rdInt_digits (t r : List Char) (ht : t ≠ [])
    (htd : ∀ c ∈ t, Char.isDigit c = true)
    (hr : r.head? = none ∨ r.head? = some ' ') :
    rdInt ⟨t ++ r, false⟩ = ((digitsVal t : Int), ⟨r, false⟩) := by
  rw [rdInt]
  rw [if_neg (by simp)]
  simp only [dropWS_digits t r ht htd]
  rw [readIntRaw]
  have hhd : (t ++ r).headD ' ' ≠ '-' := by
    cases t with
    | nil => exact absurd rfl ht
    | cons d ds =>
      simp only [List.cons_append, List.headD_cons]
      intro hc
      rw [hc] at htd
      exact absurd (htd '-' (by simp)) (by decide)
  rw [if_neg hhd]
  rw [readNatRaw_digits t r ht htd hr]
  rw [takeWhile_digit_ws hr]
  simp

lemma rdNat_ws_digits (t r : List Char) (ht : t ≠ [])
    (htd : ∀ c ∈ t, Char.isDigit c = true)
    (hr : r.head? = none ∨ r.head? = some ' ') :
    rdNat ⟨' ' :: (t ++ r), false⟩ = (digitsVal t, ⟨r, false⟩) := by
  rw [rdNat]
  rw [if_neg (by simp)]
  have hdw : (' ' :: (t ++ r)).dropWhile isWS = t ++ r := by
    rw [List.dropWhile_cons]
    rw [if_pos (by decide)]
    exact dropWS_digits t r ht htd
  simp only [hdw]
  rw [readNatRaw_digits t r ht htd hr]
  rw [takeWhile_digit_ws hr]
  simp

lemma rdChar_ws_single (c : Char) (hc : isWS c = false) :
    rdChar ⟨[' ', c], false⟩ = (c, ⟨[], false⟩) := by
  rw [rdChar]
  rw [if_neg (by simp)]
  have hdw : ([' ', c]).dropWhile isWS = [c] := by
    rw [List.dropWhile_cons]
    rw [if_pos (by decide)]
    rw [List.dropWhile_cons]
    rw [if_neg (by simp [hc])]
  rw [hdw]

/-- C6 amended: a non-blank line whose whitespace-separated tokens end
before the call string — one plain-numeral token, two plain-numeral tokens,
or two numerals plus a single-character base token — aborts the run: the
call-string extraction fails and leaves the empty string, whose single
empty token fails the `assert(alt.size() == 1)` in the `BaseCall`
constructor.  (A three-token line whose third token has extra characters
is instead accepted, see the counterexample.) -/
theorem glenn_missing_tokens_fatal
    (tbl : CallTable) (t1 t2 : List Char) (c : Char)
    (ht1 : t1 ≠ []) (ht1d : ∀ ch ∈ t1, Char.isDigit ch = true)
    (ht2 : t2 ≠ []) (ht2d : ∀ ch ∈ t2, Char.isDigit ch = true)
    (hc : isWS c = false) :
    (∃ e, processGlennLine (String.mk t1) tbl = .error e) ∧
    (∃ e, processGlennLine (String.mk (t1 ++ (' ' :: t2))) tbl = .error e) ∧
    (∃ e, processGlennLine (String.mk (t1 ++ (' ' :: (t2 ++ [' ', c])))) tbl =
      .error e) := by
  refine ⟨⟨.baseCallAssert "assert alt.size() == 1 failed", ?_⟩,
    ⟨.baseCallAssert "assert alt.size() == 1 failed", ?_⟩,
    ⟨.baseCallAssert "assert alt.size() == 1 failed", ?_⟩⟩
  · have hne : String.mk t1 ≠ "" := fun h => ht1 (congrArg String.toList h)
    rw [processGlennLine, if_neg hne]
    simp only [stringMk_toList]
    have hInt := rdInt_digits t1 [] ht1 ht1d (Or.inl rfl)
    rw [List.append_nil] at hInt
    rw [hInt]
    rfl
  · have hne : String.mk (t1 ++ (' ' :: t2)) ≠ "" := fun h => by
      have := congrArg String.toList h
      simp [stringMk_toList] at this
    rw [processGlennLine, if_neg hne]
    simp only [stringMk_toList]
    rw [rdInt_digits t1 (' ' :: t2) ht1 ht1d (Or.inr rfl)]
    have hNat := rdNat_ws_digits t2 [] ht2 ht2d (Or.inl rfl)
    rw [List.append_nil] at hNat
    rw [hNat]
    rfl
  · have hne : String.mk (t1 ++ (' ' :: (t2 ++ [' ', c]))) ≠ "" := fun h => by
      have := congrArg String.toList h
      simp [stringMk_toList] at this
    rw [processGlennLine, if_neg hne]
    simp only [stringMk_toList]
    rw [rdInt_digits t1 (' ' :: (t2 ++ [' ', c])) ht1 ht1d (Or.inr rfl)]
    rw [rdNat_ws_digits t2 [' ', c] ht2 ht2d (Or.inr rfl)]
    rw [rdChar_ws_single c hc]
    rfl

/-- Witness for C6 (amended) on concrete truncated lines. -/
theorem glenn_missing_tokens_fatal_witness :
    (∃ e, processGlennLine (String.mk ['7']) ([] : CallTable) = .error e) ∧
    (∃ e, processGlennLine (String.mk (['7'] ++ (' ' :: ['3']))) ([] : CallTable) =
      .error e) ∧
    (∃ e, processGlennLine (String.mk (['7'] ++ (' ' :: (['3'] ++ [' ', 'A']))))
      ([] : CallTable) = .error e) :=
  glenn_missing_tokens_fatal [] ['7'] ['3'] 'A' (by decide) (by decide)
    (by decide) (by decide) (by decide)
